import Mathlib

/-!
Verification of the PDF content-classification pipeline
(`conversion/classification.py`, `conversion/extraction.py`,
`conversion/conversion_models.py`) of the DysPositif web application.

Strings are modelled as `List Char`; Python floats are modelled as `ℚ`
(no rounding-sensitive computation appears in the verified components);
Python ints are modelled as `Int`/`Nat`.  The specific regular
expressions used by the source are translated into explicit recursive
matchers with Python's leftmost / greedy-with-backtracking semantics.
-/

set_option maxHeartbeats 1000000

/-- Whitespace, as matched by Python's `\s` (for `str` patterns) and by
`str.strip()` / `str.split()`, restricted to the whitespace characters
relevant to the pipeline (ASCII whitespace plus no-break space). -/
def isWs (c : Char) : Bool :=
  c == ' ' || c == '\t' || c == '\n' || c == '\r' || c == '\x0b' ||
  c == '\x0c' || c == '\u00A0'

/-- Generic association-list lookup (used for the glyph maps and the
canonical-composition table). -/
def assocFind {α β : Type} [DecidableEq α] : List (α × β) → α → Option β
  | [], _ => none
  | (k, v) :: rest, a => if k = a then some v else assocFind rest a

/-- Modelled from the spec: `unicodedata.normalize('NFC', text)` "applies
Unicode canonical composition".  The composition pass below implements the
canonical-composition step of NFC over a representative fragment of the
Unicode canonical composition table (Latin letters with combining grave,
acute and circumflex accents); all behaviour relevant to the claims is the
genuine Unicode behaviour of these pairs. -/
def composePairs : List ((Char × Char) × Char) :=
  [(('a', '\u0300'), 'à'), (('a', '\u0301'), 'á'),
   (('e', '\u0300'), 'è'), (('e', '\u0301'), 'é'),
   (('o', '\u0302'), 'ô'), (('u', '\u0300'), 'ù')]

/-- The combining marks appearing in the modelled composition table. -/
def markChars : List Char := ['\u0300', '\u0301', '\u0302']

/-- Canonical composition of a base character with a following mark. -/
def compose (a b : Char) : Option Char := assocFind composePairs (a, b)

/-- Composition pass of NFC: repeatedly compose a character with the next
one when the pair is canonically composable. -/
def nfcAux : Char → List Char → List Char
  | a, [] => [a]
  | a, b :: rest =>
    match compose a b with
    | some c => nfcAux c rest
    | none => a :: nfcAux b rest

/-- Modelled from the spec: Unicode NFC normalization (canonical
composition), see `composePairs`. -/
def nfc : List Char → List Char
  | [] => []
  | a :: rest => nfcAux a rest

/-- State machine for `re.sub(r'-\s*\n\s*', '', text)`: a `-` followed by a
maximal whitespace run containing at least one newline is deleted together
with that run (the greedy `\s*`s make the regex consume the whole maximal
run around the first possible newline).  The accumulator holds the
(reversed) whitespace run scanned since the pending `-`. -/
def sub1Go : Option (List Char) → List Char → List Char
  | none, [] => []
  | none, c :: rest =>
    if c = '-' then sub1Go (some []) rest else c :: sub1Go none rest
  | some acc, [] => if '\n' ∈ acc then [] else '-' :: acc.reverse
  | some acc, c :: rest =>
    if isWs c then sub1Go (some (c :: acc)) rest
    else if '\n' ∈ acc then
      if c = '-' then sub1Go (some []) rest else c :: sub1Go none rest
    else
      ('-' :: acc.reverse) ++
        (if c = '-' then sub1Go (some []) rest else c :: sub1Go none rest)

/-- `re.sub(r'-\s*\n\s*', '', text)`. -/
def sub1 (l : List Char) : List Char := sub1Go none l

/-- Emit a finished whitespace run for `sub2Go`: a run containing a newline
collapses to a single space, any other run is kept verbatim. -/
def flushRun (acc : List Char) : List Char :=
  if '\n' ∈ acc then [' '] else acc.reverse

/-- State machine for `re.sub(r'\s*\n\s*', ' ', text)`: each maximal
whitespace run containing a newline becomes one space. -/
def sub2Go : List Char → List Char → List Char
  | acc, [] => flushRun acc
  | acc, c :: rest =>
    if isWs c then sub2Go (c :: acc) rest
    else flushRun acc ++ c :: sub2Go [] rest

/-- `re.sub(r'\s*\n\s*', ' ', text)`. -/
def sub2 (l : List Char) : List Char := sub2Go [] l

/-- Emit a finished whitespace run for `sub3Go`: runs of length ≥ 2
collapse to a single space, a single whitespace character is kept. -/
def emit3 (acc : List Char) : List Char :=
  if 2 ≤ acc.length then [' '] else acc.reverse

/-- State machine for `re.sub(r'\s{2,}', ' ', text)`. -/
def sub3Go : List Char → List Char → List Char
  | acc, [] => emit3 acc
  | acc, c :: rest =>
    if isWs c then sub3Go (c :: acc) rest
    else emit3 acc ++ c :: sub3Go [] rest

/-- `re.sub(r'\s{2,}', ' ', text)`. -/
def sub3 (l : List Char) : List Char := sub3Go [] l

/-- Left part of Python's `str.strip()`. -/
def lstrip (l : List Char) : List Char := l.dropWhile isWs

/-- Right part of Python's `str.strip()`. -/
def rstrip (l : List Char) : List Char := (l.reverse.dropWhile isWs).reverse

/-- Python's `str.strip()` (whitespace on both ends removed). -/
def stripWs (l : List Char) : List Char := rstrip (lstrip l)

/-- `_BULLET_VARIANTS` from `classification.py`. -/
def bulletVariants : List Char := ['•', '◦', '∙', '‣', '▪', '▫', '■', '□', '○']

/-- `_CHECKBOX_EMPTY_VARIANTS` from `classification.py`. -/
def checkboxEmptyVariants : List Char := ['□', '☐', '❏']

/-- `_CHECKBOX_FILLED_VARIANTS` from `classification.py`. -/
def checkboxFilledVariants : List Char := ['☒', '✔', '✓', '✅', '❎', '☑']

/-- `_MATH_ITALIC_MAP` from `classification.py`. -/
def mathItalicPairs : List (Char × Char) :=
  [('𝑓', 'f'), ('𝑔', 'g'), ('𝑁', 'N'), ('𝑥', 'x'), ('𝑛', 'n'), ('𝑦', 'y')]

/-- `_PRIVATE_USE_MAP` from `classification.py`. -/
def privateUsePairs : List (Char × Char) :=
  [('\uF06F', '☐'), ('\uF0A8', '☐'), ('\uF0A3', '☐'), ('\uF0A4', '☐'),
   ('\uF0A5', '☐'), ('\uF0A6', '☐'), ('\uF0A7', '☐'), ('\uF0A9', '☐'),
   ('\uF0AA', '☐'), ('\uF0AB', '☐'), ('\uF0AC', '☐'), ('\uF0AD', '☐'),
   ('\uF0AE', '☐'), ('\uF0AF', '☐'), ('\uF0B0', '☐'), ('\uF0B1', '☐'),
   ('\uF0B2', '☐'), ('\uF0B3', '☐'), ('\uF0B4', '☐'),
   ('\uF0A2', '☑'), ('\uF0B5', '☑')]

/-- `normalize_glyph_char` from `classification.py`: private-use glyphs,
bullets, checkboxes and math-italic letters are canonicalized, in that
order; any other character is returned unchanged. -/
def normalize_glyph_char (c : Char) : Char :=
  match assocFind privateUsePairs c with
  | some r => r
  | none =>
    if c ∈ bulletVariants then '•'
    else if c ∈ checkboxEmptyVariants then '☐'
    else if c ∈ checkboxFilledVariants then '☑'
    else
      match assocFind mathItalicPairs c with
      | some r => r
      | none => c

/-- `normalize_text` from `classification.py`: NFC, hyphenation-break
removal, newline collapapse, glyph canonicalization, multi-space collapse,
strip. -/
def normalize_text (l : List Char) : List Char :=
  stripWs (sub3 (List.map normalize_glyph_char (sub2 (sub1 (nfc l)))))

/-- Convenience: the characters of a string literal. -/
def str (s : String) : List Char := s.data

/-! ### Lemmas about the glyph map -/

/-- The canonical outputs of `normalize_glyph_char` other than the
identity case. -/
def glyphOutSet : List Char := ['•', '☐', '☑', 'f', 'g', 'N', 'x', 'n', 'y']

theorem assocFind_mem_snd {α β : Type} [DecidableEq α] :
    ∀ (ps : List (α × β)) (a : α) (r : β),
      assocFind ps a = some r → r ∈ ps.map Prod.snd := by
  intro ps
  induction ps with
  | nil => intro a r h; simp [assocFind] at h
  | cons p rest ih =>
    intro a r h
    obtain ⟨k, v⟩ := p
    simp only [assocFind] at h
    split at h
    · cases h; simp
    · simpa using Or.inr (ih a r h)

theorem assocFind_mem_fst {α β : Type} [DecidableEq α] :
    ∀ (ps : List (α × β)) (a : α) (r : β),
      assocFind ps a = some r → a ∈ ps.map Prod.fst := by
  intro ps
  induction ps with
  | nil => intro a r h; simp [assocFind] at h
  | cons p rest ih =>
    intro a r h
    obtain ⟨k, v⟩ := p
    simp only [assocFind] at h
    split at h
    · rename_i hk; subst hk; simp
    · simpa using Or.inr (ih a r h)

theorem glyph_out (c : Char) :
    normalize_glyph_char c = c ∨ normalize_glyph_char c ∈ glyphOutSet := by
  have hpuSub : ∀ x ∈ privateUsePairs.map Prod.snd, x ∈ glyphOutSet := by decide
  have hmiSub : ∀ x ∈ mathItalicPairs.map Prod.snd, x ∈ glyphOutSet := by decide
  unfold normalize_glyph_char
  cases hpu : assocFind privateUsePairs c with
  | some r => exact Or.inr (hpuSub r (assocFind_mem_snd _ _ _ hpu))
  | none =>
    split_ifs with h1 h2 h3
    · exact Or.inr (by decide)
    · exact Or.inr (by decide)
    · exact Or.inr (by decide)
    · cases hmi : assocFind mathItalicPairs c with
      | some r => exact Or.inr (hmiSub r (assocFind_mem_snd _ _ _ hmi))
      | none => exact Or.inl rfl

theorem glyph_fix : ∀ c ∈ glyphOutSet, normalize_glyph_char c = c := by decide

theorem glyph_idem (c : Char) :
    normalize_glyph_char (normalize_glyph_char c) = normalize_glyph_char c := by
  rcases glyph_out c with h | h
  · rw [h]; exact h
  · exact glyph_fix _ h

theorem glyph_eq_newline {c : Char} (h : normalize_glyph_char c = '\n') :
    c = '\n' := by
  rcases glyph_out c with h' | h'
  · rw [← h', h]
  · rw [h] at h'; exact absurd h' (by decide)

theorem glyph_not_mark {c : Char} (h : c ∉ markChars) :
    normalize_glyph_char c ∉ markChars := by
  rcases glyph_out c with h' | h'
  · rw [h']; exact h
  · have : ∀ x ∈ glyphOutSet, x ∉ markChars := by decide
    exact this _ h'

/-! ### Character-membership lemmas for the substitution passes -/

theorem mem_sub1Go :
    ∀ l : List Char,
      (∀ c, c ∈ sub1Go none l → c ∈ l) ∧
      (∀ acc c, c ∈ sub1Go (some acc) l → c ∈ l ∨ c ∈ acc ∨ c = '-') := by
  intro l
  induction l with
  | nil =>
    refine ⟨fun c hc => by simp [sub1Go] at hc, fun acc c hc => ?_⟩
    simp only [sub1Go] at hc
    split at hc
    · simp at hc
    · simp only [List.mem_cons, List.mem_reverse] at hc
      rcases hc with h | h
      · exact Or.inr (Or.inr h)
      · exact Or.inr (Or.inl h)
  | cons a rest ih =>
    constructor
    · intro c hc
      simp only [sub1Go] at hc
      split at hc
      · rename_i ha
        rcases ih.2 [] c hc with h | h | h
        · exact List.mem_cons_of_mem _ h
        · simp at h
        · subst h; rw [ha]; exact List.mem_cons_self _ _
      · rcases List.mem_cons.mp hc with h | h
        · subst h; exact List.mem_cons_self _ _
        · exact List.mem_cons_of_mem _ (ih.1 c h)
    · intro acc c hc
      simp only [sub1Go] at hc
      split at hc
      · rcases ih.2 (a :: acc) c hc with h | h | h
        · exact Or.inl (List.mem_cons_of_mem _ h)
        · rcases List.mem_cons.mp h with h' | h'
          · subst h'; exact Or.inl (List.mem_cons_self _ _)
          · exact Or.inr (Or.inl h')
        · exact Or.inr (Or.inr h)
      · split at hc
        · split at hc
          · rename_i ha
            rcases ih.2 [] c hc with h | h | h
            · exact Or.inl (List.mem_cons_of_mem _ h)
            · simp at h
            · subst h; rw [ha]; exact Or.inl (List.mem_cons_self _ _)
          · rcases List.mem_cons.mp hc with h | h
            · subst h; exact Or.inl (List.mem_cons_self _ _)
            · exact Or.inl (List.mem_cons_of_mem _ (ih.1 c h))
        · rcases List.mem_append.mp hc with h | h
          · rcases List.mem_cons.mp h with h' | h'
            · exact Or.inr (Or.inr h')
            · exact Or.inr (Or.inl (List.mem_reverse.mp h'))
          · split at h
            · rename_i ha
              rcases ih.2 [] c h with h' | h' | h'
              · exact Or.inl (List.mem_cons_of_mem _ h')
              · simp at h'
              · subst h'; rw [ha]; exact Or.inl (List.mem_cons_self _ _)
            · rcases List.mem_cons.mp h with h' | h'
              · subst h'; exact Or.inl (List.mem_cons_self _ _)
              · exact Or.inl (List.mem_cons_of_mem _ (ih.1 c h'))

theorem mem_sub1 {l : List Char} {c : Char} (h : c ∈ sub1 l) : c ∈ l ∨ c = '-' := by
  rcases (mem_sub1Go l).1 c h with h'
  exact Or.inl h'

theorem mem_flushRun {acc : List Char} {c : Char} (h : c ∈ flushRun acc) :
    c ∈ acc ∨ c = ' ' := by
  unfold flushRun at h
  split at h
  · simp at h; exact Or.inr h
  · exact Or.inl (List.mem_reverse.mp h)

theorem mem_sub2Go :
    ∀ (l : List Char) (acc : List Char) (c : Char),
      c ∈ sub2Go acc l → c ∈ acc ∨ c ∈ l ∨ c = ' ' := by
  intro l
  induction l with
  | nil =>
    intro acc c hc
    rcases mem_flushRun hc with h | h
    · exact Or.inl h
    · exact Or.inr (Or.inr h)
  | cons a rest ih =>
    intro acc c hc
    simp only [sub2Go] at hc
    split at hc
    · rcases ih (a :: acc) c hc with h | h | h
      · rcases List.mem_cons.mp h with h' | h'
        · subst h'; exact Or.inr (Or.inl (List.mem_cons_self _ _))
        · exact Or.inl h'
      · exact Or.inr (Or.inl (List.mem_cons_of_mem _ h))
      · exact Or.inr (Or.inr h)
    · rcases List.mem_append.mp hc with h | h
      · rcases mem_flushRun h with h' | h'
        · exact Or.inl h'
        · exact Or.inr (Or.inr h')
      · rcases List.mem_cons.mp h with h' | h'
        · subst h'; exact Or.inr (Or.inl (List.mem_cons_self _ _))
        · rcases ih [] c h' with h'' | h'' | h''
          · simp at h''
          · exact Or.inr (Or.inl (List.mem_cons_of_mem _ h''))
          · exact Or.inr (Or.inr h'')

theorem mem_emit3 {acc : List Char} {c : Char} (h : c ∈ emit3 acc) :
    c ∈ acc ∨ c = ' ' := by
  unfold emit3 at h
  split at h
  · simp at h; exact Or.inr h
  · exact Or.inl (List.mem_reverse.mp h)

theorem mem_sub3Go :
    ∀ (l : List Char) (acc : List Char) (c : Char),
      c ∈ sub3Go acc l → c ∈ acc ∨ c ∈ l ∨ c = ' ' := by
  intro l
  induction l with
  | nil =>
    intro acc c hc
    rcases mem_emit3 hc with h | h
    · exact Or.inl h
    · exact Or.inr (Or.inr h)
  | cons a rest ih =>
    intro acc c hc
    simp only [sub3Go] at hc
    split at hc
    · rcases ih (a :: acc) c hc with h | h | h
      · rcases List.mem_cons.mp h with h' | h'
        · subst h'; exact Or.inr (Or.inl (List.mem_cons_self _ _))
        · exact Or.inl h'
      · exact Or.inr (Or.inl (List.mem_cons_of_mem _ h))
      · exact Or.inr (Or.inr h)
    · rcases List.mem_append.mp hc with h | h
      · rcases mem_emit3 h with h' | h'
        · exact Or.inl h'
        · exact Or.inr (Or.inr h')
      · rcases List.mem_cons.mp h with h' | h'
        · subst h'; exact Or.inr (Or.inl (List.mem_cons_self _ _))
        · rcases ih [] c h' with h'' | h'' | h''
          · simp at h''
          · exact Or.inr (Or.inl (List.mem_cons_of_mem _ h''))
          · exact Or.inr (Or.inr h'')

theorem mem_lstrip {l : List Char} {c : Char} (h : c ∈ lstrip l) : c ∈ l :=
  (List.dropWhile_suffix _).subset h

theorem mem_rstrip {l : List Char} {c : Char} (h : c ∈ rstrip l) : c ∈ l := by
  unfold rstrip at h
  rw [List.mem_reverse] at h
  exact List.mem_reverse.mp ((List.dropWhile_suffix _).subset h)

theorem mem_stripWs {l : List Char} {c : Char} (h : c ∈ stripWs l) : c ∈ l :=
  mem_lstrip (mem_rstrip h)

/-! ### Newline elimination and identity lemmas for the substitutions -/

theorem newline_not_mem_flushRun (acc : List Char) : '\n' ∉ flushRun acc := by
  unfold flushRun
  split
  · simp
  · intro h
    rename_i hn
    exact hn (List.mem_reverse.mp h)

theorem newline_not_mem_sub2Go :
    ∀ (l : List Char) (acc : List Char), '\n' ∉ sub2Go acc l := by
  intro l
  induction l with
  | nil => intro acc; exact newline_not_mem_flushRun acc
  | cons a rest ih =>
    intro acc
    simp only [sub2Go]
    split
    · exact ih (a :: acc)
    · rename_i ha
      intro h
      rcases List.mem_append.mp h with h' | h'
      · exact newline_not_mem_flushRun acc h'
      · rcases List.mem_cons.mp h' with h'' | h''
        · rw [← h''] at ha; simp [isWs] at ha
        · exact ih [] h''

theorem newline_not_mem_sub2 (l : List Char) : '\n' ∉ sub2 l :=
  newline_not_mem_sub2Go l []

theorem sub1Go_no_newline :
    ∀ l : List Char, '\n' ∉ l →
      sub1Go none l = l ∧
      ∀ acc, '\n' ∉ acc → sub1Go (some acc) l = '-' :: acc.reverse ++ l := by
  intro l
  induction l with
  | nil =>
    intro _
    refine ⟨rfl, fun acc hacc => ?_⟩
    simp [sub1Go, hacc]
  | cons a rest ih =>
    intro hl
    have ha : a ≠ '\n' := fun h => hl (h ▸ List.mem_cons_self _ _)
    have hrest : '\n' ∉ rest := fun h => hl (List.mem_cons_of_mem _ h)
    obtain ⟨ih1, ih2⟩ := ih hrest
    constructor
    · simp only [sub1Go]
      split
      · rename_i hd
        rw [ih2 [] (by simp), hd]
        rfl
      · rw [ih1]
    · intro acc hacc
      simp only [sub1Go]
      by_cases hws : isWs a
      · rw [if_pos hws, ih2 (a :: acc) (by
          intro h
          rcases List.mem_cons.mp h with h' | h'
          · exact ha h'.symm
          · exact hacc h')]
        simp
      · rw [if_neg hws, if_neg hacc]
        by_cases hd : a = '-'
        · rw [if_pos hd, ih2 [] (by simp), hd]
          simp
        · rw [if_neg hd, ih1]

theorem sub1_id_of_no_newline {l : List Char} (h : '\n' ∉ l) : sub1 l = l :=
  (sub1Go_no_newline l h).1

theorem sub2Go_no_newline :
    ∀ l : List Char, '\n' ∉ l →
      ∀ acc, '\n' ∉ acc → sub2Go acc l = acc.reverse ++ l := by
  intro l
  induction l with
  | nil =>
    intro _ acc hacc
    simp [sub2Go, flushRun, hacc]
  | cons a rest ih =>
    intro hl acc hacc
    have ha : a ≠ '\n' := fun h => hl (h ▸ List.mem_cons_self _ _)
    have hrest : '\n' ∉ rest := fun h => hl (List.mem_cons_of_mem _ h)
    simp only [sub2Go]
    split
    · rw [ih hrest (a :: acc) (by
        intro h
        rcases List.mem_cons.mp h with h' | h'
        · exact ha h'.symm
        · exact hacc h')]
      simp
    · rw [ih hrest [] (by simp)]
      simp [flushRun, hacc]

theorem sub2_id_of_no_newline {l : List Char} (h : '\n' ∉ l) : sub2 l = l := by
  simpa using sub2Go_no_newline l h [] (by simp)

/-! ### No-double-whitespace structure of `sub3` outputs -/

/-- Two adjacent characters are not both whitespace. -/
def noDoubleWs (a b : Char) : Prop := ¬(isWs a ∧ isWs b)

theorem emit3_cases (acc : List Char) :
    emit3 acc = [] ∨ ∃ x, emit3 acc = [x] := by
  unfold emit3
  split
  · exact Or.inr ⟨' ', rfl⟩
  · rename_i h
    match acc with
    | [] => exact Or.inl rfl
    | [x] => exact Or.inr ⟨x, rfl⟩
    | x :: y :: rest => exact absurd (by simp) h

theorem chain'_sub3Go :
    ∀ (l : List Char) (acc : List Char), List.Chain' noDoubleWs (sub3Go acc l) := by
  intro l
  induction l with
  | nil =>
    intro acc
    rcases emit3_cases acc with h | ⟨x, h⟩ <;> simp [sub3Go, h]
  | cons a rest ih =>
    intro acc
    simp only [sub3Go]
    split
    · exact ih (a :: acc)
    · rename_i ha
      have hcons : List.Chain' noDoubleWs (a :: sub3Go [] rest) := by
        rw [List.chain'_cons']
        exact ⟨fun y _ => fun hy => ha hy.1, ih []⟩
      rcases emit3_cases acc with h | ⟨x, h⟩
      · simpa [h] using hcons
      · rw [h]
        rw [List.chain'_append]
        refine ⟨by simp, hcons, ?_⟩
        intro u hu y hy
        simp at hu
        subst hu
        simp at hy
        subst hy
        exact fun hx => ha hx.2

theorem chain'_sub3 (l : List Char) : List.Chain' noDoubleWs (sub3 l) :=
  chain'_sub3Go l []

theorem sub3Go_id (l : List Char) (hl : List.Chain' noDoubleWs l) :
    sub3Go [] l = l := by
  induction l with
  | nil => rfl
  | cons a rest ih =>
    by_cases ha : isWs a
    · cases rest with
      | nil => simp [sub3Go, emit3]
      | cons b rest' =>
        have hab : noDoubleWs a b := (List.chain'_cons.mp hl).1
        have hb : ¬ isWs b = true := fun hb => hab ⟨ha, hb⟩
        have htail := ih (List.chain'_cons.mp hl).2
        have h2 : sub3Go [] (b :: rest') = b :: sub3Go [] rest' := by
          simp only [sub3Go]
          rw [if_neg hb]
          simp [emit3]
        rw [h2] at htail
        have h3 : sub3Go [] rest' = rest' := by
          exact (List.cons.injEq _ _ _ _).mp htail |>.2
        show sub3Go [] (a :: b :: rest') = a :: b :: rest'
        simp only [sub3Go]
        rw [if_pos ha, if_neg hb]
        simp [emit3, h3]
    · have htail := ih (List.Chain'.tail hl)
      simp only [sub3Go]
      rw [if_neg ha]
      simp [emit3, htail]

theorem sub3_id_of_chain {l : List Char} (hl : List.Chain' noDoubleWs l) :
    sub3 l = l := sub3Go_id l hl

/-! ### Chain preservation and idempotence of `stripWs` -/

theorem noDoubleWs_symm {a b : Char} (h : noDoubleWs a b) : noDoubleWs b a :=
  fun hc => h ⟨hc.2, hc.1⟩

theorem chain'_reverse_of_chain' {l : List Char}
    (h : List.Chain' noDoubleWs l) : List.Chain' noDoubleWs l.reverse := by
  rw [List.chain'_reverse]
  exact h.imp fun _ _ hab => noDoubleWs_symm hab

theorem chain'_lstrip {l : List Char} (h : List.Chain' noDoubleWs l) :
    List.Chain' noDoubleWs (lstrip l) :=
  h.suffix (List.dropWhile_suffix _)

theorem chain'_rstrip {l : List Char} (h : List.Chain' noDoubleWs l) :
    List.Chain' noDoubleWs (rstrip l) := by
  unfold rstrip
  exact chain'_reverse_of_chain'
    ((chain'_reverse_of_chain' h).suffix (List.dropWhile_suffix _))

theorem chain'_stripWs {l : List Char} (h : List.Chain' noDoubleWs l) :
    List.Chain' noDoubleWs (stripWs l) :=
  chain'_rstrip (chain'_lstrip h)

theorem dropWhile_idem (p : Char → Bool) (l : List Char) :
    (l.dropWhile p).dropWhile p = l.dropWhile p := by
  induction l with
  | nil => rfl
  | cons a rest ih =>
    by_cases ha : p a
    · simp [List.dropWhile_cons, ha, ih]
    · simp [List.dropWhile_cons, ha]

theorem lstrip_idem (l : List Char) : lstrip (lstrip l) = lstrip l :=
  dropWhile_idem isWs l

theorem rstrip_idem (l : List Char) : rstrip (rstrip l) = rstrip l := by
  unfold rstrip
  rw [List.reverse_reverse, dropWhile_idem]

theorem lstrip_rstrip {m : List Char} (hm : lstrip m = m) :
    lstrip (rstrip m) = rstrip m := by
  have hpre : ∃ t, rstrip m ++ t = m := by
    obtain ⟨s, hs⟩ := List.dropWhile_suffix (l := m.reverse) isWs
    refine ⟨s.reverse, ?_⟩
    have := congrArg List.reverse hs
    simpa [rstrip] using this
  obtain ⟨t, ht⟩ := hpre
  cases hr : rstrip m with
  | nil => rfl
  | cons c t' =>
    rw [hr] at ht
    have hcm : m = c :: (t' ++ t) := by rw [← ht]; simp
    have hc : ¬ isWs c = true := by
      intro hc
      rw [hcm] at hm
      unfold lstrip at hm
      rw [List.dropWhile_cons, if_pos hc] at hm
      have hlen := congrArg List.length hm
      have hle : ((t' ++ t).dropWhile isWs).length ≤ (t' ++ t).length :=
        (List.dropWhile_suffix _).sublist.length_le
      simp only [List.length_cons, List.length_append] at hlen hle
      omega
    unfold lstrip
    rw [List.dropWhile_cons, if_neg hc]

theorem stripWs_idem (l : List Char) : stripWs (stripWs l) = stripWs l := by
  unfold stripWs
  rw [lstrip_rstrip (lstrip_idem l), rstrip_idem]

/-! ### NFC composition lemmas -/

/-- A string free of the modelled combining marks. -/
def noMark (l : List Char) : Prop := ∀ c ∈ l, c ∉ markChars

theorem compose_mark {a b c : Char} (h : compose a b = some c) :
    b ∈ markChars := by
  have hk := assocFind_mem_fst _ _ _ h
  have : ∀ k ∈ composePairs.map Prod.fst, k.2 ∈ markChars := by decide
  exact this _ hk

theorem nfcAux_no_mark :
    ∀ (l : List Char) (a : Char), noMark l → nfcAux a l = a :: l := by
  intro l
  induction l with
  | nil => intro a _; rfl
  | cons b rest ih =>
    intro a hl
    have hb : b ∉ markChars := hl b (List.mem_cons_self _ _)
    simp only [nfcAux]
    cases hc : compose a b with
    | some c => exact absurd (compose_mark hc) hb
    | none =>
      rw [ih b (fun c hc' => hl c (List.mem_cons_of_mem _ hc'))]

theorem nfc_no_mark {l : List Char} (h : noMark l) : nfc l = l := by
  cases l with
  | nil => rfl
  | cons a rest =>
    simp only [nfc]
    exact nfcAux_no_mark rest a (fun c hc => h c (List.mem_cons_of_mem _ hc))

/-! ### Idempotence of the post-NFC normalization core -/

/-- The part of `normalize_text` after the NFC pass. -/
def normCore (l : List Char) : List Char :=
  stripWs (sub3 (List.map normalize_glyph_char (sub2 (sub1 l))))

theorem normalize_text_eq_core (l : List Char) :
    normalize_text l = normCore (nfc l) := rfl

theorem normCore_char {l : List Char} {c : Char} (h : c ∈ normCore l) :
    c = ' ' ∨ ∃ d, (d ∈ l ∨ d = '-' ∨ d = ' ') ∧ c = normalize_glyph_char d := by
  unfold normCore at h
  have h1 := mem_stripWs h
  rcases mem_sub3Go _ [] _ h1 with h2 | h2 | h2
  · simp at h2
  · rcases List.mem_map.mp h2 with ⟨d, hd, hdc⟩
    rcases mem_sub2Go _ [] _ hd with h3 | h3 | h3
    · simp at h3
    · rcases mem_sub1 h3 with h4 | h4
      · exact Or.inr ⟨d, Or.inl h4, hdc.symm⟩
      · exact Or.inr ⟨d, Or.inr (Or.inl h4), hdc.symm⟩
    · exact Or.inr ⟨d, Or.inr (Or.inr h3), hdc.symm⟩
  · exact Or.inl h2

theorem normCore_no_newline (l : List Char) : '\n' ∉ normCore l := by
  intro h
  unfold normCore at h
  have h1 := mem_stripWs h
  rcases mem_sub3Go _ [] _ h1 with h2 | h2 | h2
  · simp at h2
  · rcases List.mem_map.mp h2 with ⟨d, hd, hdc⟩
    have hdn : d = '\n' := glyph_eq_newline hdc
    rw [hdn] at hd
    exact newline_not_mem_sub2 _ hd
  · simp at h2

theorem normCore_glyph_fixed {l : List Char} {c : Char} (h : c ∈ normCore l) :
    normalize_glyph_char c = c := by
  rcases normCore_char h with h' | ⟨d, _, hdc⟩
  · subst h'; decide
  · subst hdc; exact glyph_idem d

theorem normCore_chain (l : List Char) :
    List.Chain' noDoubleWs (normCore l) :=
  chain'_stripWs (chain'_sub3 _)

theorem normCore_strip_fixed (l : List Char) :
    stripWs (normCore l) = normCore l := by
  unfold normCore
  rw [stripWs_idem]

theorem normCore_no_mark {l : List Char} (h : noMark l) : noMark (normCore l) := by
  intro c hc
  rcases normCore_char hc with h' | ⟨d, hd, hdc⟩
  · subst h'; decide
  · subst hdc
    rcases hd with hd | hd | hd
    · exact glyph_not_mark (h d hd)
    · subst hd; exact glyph_not_mark (by decide)
    · subst hd; exact glyph_not_mark (by decide)

theorem normCore_idem (l : List Char) : normCore (normCore l) = normCore l := by
  have hnl : '\n' ∉ normCore l := normCore_no_newline l
  nth_rewrite 1 [normCore]
  rw [show sub1 (normCore l) = normCore l from sub1_id_of_no_newline hnl]
  rw [show sub2 (normCore l) = normCore l from sub2_id_of_no_newline hnl]
  rw [show List.map normalize_glyph_char (normCore l) = normCore l by
    rw [List.map_congr_left (fun c hc => normCore_glyph_fixed hc)]
    exact List.map_id _]
  rw [show sub3 (normCore l) = normCore l from
    sub3_id_of_chain (normCore_chain l)]
  exact normCore_strip_fixed l

/-! ### Claim C1 -/

/-- C1 counterexample: `normalize_text` is not idempotent.  On the input
`"e-\n"` followed by a combining acute accent, the first pass removes the
hyphenation break and juxtaposes `e` with the combining accent; the second
pass's NFC step then composes them into the precomposed `é`, so the two
results differ. -/
theorem C1_counterexample :
    normalize_text (normalize_text ['e', '-', '\n', '́']) ≠
      normalize_text ['e', '-', '\n', '́'] := by decide

/-- C1 (amended): `normalize_text` is idempotent on every input containing
no combining accent characters (so that hyphenation-break removal cannot
juxtapose a letter with a combining accent that NFC then composes), and it
maps the empty string to the empty string. -/
theorem C1_normalize_text_idem :
    (∀ s : List Char, noMark s →
      normalize_text (normalize_text s) = normalize_text s) ∧
    normalize_text [] = [] := by
  constructor
  · intro s hs
    simp only [normalize_text_eq_core]
    rw [nfc_no_mark hs, nfc_no_mark (normCore_no_mark hs), normCore_idem]
  · rfl

/-- C1 witness: the amended idempotence theorem applied to a concrete
accent-free string. -/
theorem C1_witness :
    normalize_text (normalize_text (str "Bonjour  le\nmonde")) =
      normalize_text (str "Bonjour  le\nmonde") :=
  C1_normalize_text_idem.1 (str "Bonjour  le\nmonde")
    (by unfold noMark; decide)

/-! ### Claim C4 -/

theorem assocFind_eq_none {α β : Type} [DecidableEq α] :
    ∀ (ps : List (α × β)) (a : α), (∀ r, (a, r) ∉ ps) → assocFind ps a = none := by
  intro ps
  induction ps with
  | nil => intro a _; rfl
  | cons p rest ih =>
    intro a h
    obtain ⟨k, v⟩ := p
    simp only [assocFind]
    split
    · rename_i hk
      subst hk
      exact absurd (List.mem_cons_self _ _) (h v)
    · exact ih a (fun r hr => h r (List.mem_cons_of_mem _ hr))

/-- C4 counterexample: `'□'` is listed among the empty-checkbox variants,
but `normalize_glyph_char` maps it to the canonical bullet `'•'` (the
bullet-variant check runs first), not to one of the two canonical checkbox
glyphs. -/
theorem C4_counterexample :
    '□' ∈ checkboxEmptyVariants ∧
      normalize_glyph_char '□' = '•' ∧
      normalize_glyph_char '□' ∉ ['☐', '☑'] := by decide

/-- C4 (amended): `normalize_glyph_char` maps every bullet variant to
`'•'`; every empty-checkbox variant except `'□'` (which is also a bullet
variant and becomes `'•'`) to `'☐'`; every filled-checkbox variant to
`'☑'`; every listed private-use codepoint to its canonical checkbox glyph
(one of `'☐'`/`'☑'`); every listed math-italic letter to its ASCII letter;
and every other character to itself. -/
theorem C4_normalize_glyph_char_cases (c : Char) :
    (c ∈ bulletVariants → normalize_glyph_char c = '•') ∧
    (c ∈ checkboxEmptyVariants → c ≠ '□' → normalize_glyph_char c = '☐') ∧
    (c ∈ checkboxFilledVariants → normalize_glyph_char c = '☑') ∧
    (∀ r, (c, r) ∈ privateUsePairs →
      normalize_glyph_char c = r ∧ r ∈ ['☐', '☑']) ∧
    (∀ r, (c, r) ∈ mathItalicPairs → normalize_glyph_char c = r) ∧
    (c ∉ bulletVariants → c ∉ checkboxEmptyVariants →
      c ∉ checkboxFilledVariants → (∀ r, (c, r) ∉ privateUsePairs) →
      (∀ r, (c, r) ∉ mathItalicPairs) → normalize_glyph_char c = c) := by
  refine ⟨?_, ?_, ?_, ?_, ?_, ?_⟩
  · intro h; fin_cases h <;> decide
  · intro h hne
    fin_cases h
    · exact absurd rfl hne
    · decide
    · decide
  · intro h; fin_cases h <;> decide
  · intro r hr; fin_cases hr <;> exact ⟨by decide, by decide⟩
  · intro r hr; fin_cases hr <;> decide
  · intro h1 h2 h3 h4 h5
    unfold normalize_glyph_char
    rw [assocFind_eq_none _ _ h4, assocFind_eq_none _ _ h5,
        if_neg h1, if_neg h2, if_neg h3]

/-- C4 witness: the amended glyph theorem applied to concrete glyphs from
each class. -/
theorem C4_witness :
    normalize_glyph_char '◦' = '•' ∧ normalize_glyph_char '❏' = '☐' ∧
      normalize_glyph_char '✔' = '☑' ∧ normalize_glyph_char '𝑁' = 'N' ∧
      normalize_glyph_char 'Q' = 'Q' :=
  ⟨(C4_normalize_glyph_char_cases '◦').1 (by decide),
   (C4_normalize_glyph_char_cases '❏').2.1 (by decide) (by decide),
   (C4_normalize_glyph_char_cases '✔').2.2.1 (by decide),
   (C4_normalize_glyph_char_cases '𝑁').2.2.2.2.1 'N' (by decide),
   (C4_normalize_glyph_char_cases 'Q').2.2.2.2.2 (by decide) (by decide)
     (by decide)
     (fun r hr => absurd (List.mem_map_of_mem Prod.fst hr)
       (show 'Q' ∉ privateUsePairs.map Prod.fst by decide))
     (fun r hr => absurd (List.mem_map_of_mem Prod.fst hr)
       (show 'Q' ∉ mathItalicPairs.map Prod.fst by decide))⟩

/-! ### Exercise-table regex machinery (`parse_exercises_table`) -/

/-- Case-insensitive literal match (Python `re.IGNORECASE` over the ASCII
literals used in the patterns): returns the consumed original-case
characters and the remaining input. -/
def matchCI : List Char → List Char → Option (List Char × List Char)
  | [], l => some ([], l)
  | _ :: _, [] => none
  | p :: ps, c :: cs =>
    if c.toLower = p.toLower then
      match matchCI ps cs with
      | some (con, rest) => some (c :: con, rest)
      | none => none
    else none

/-- Python's case-sensitive substring test (`pat in text`). -/
def containsSub (pat : List Char) : List Char → Bool
  | [] => pat.isPrefixOf []
  | c :: rest => pat.isPrefixOf (c :: rest) || containsSub pat rest

/-- The optional group `(?:\s*\([^)]*\))?` of the pair regex: whitespace,
an opening parenthesis, a maximal run of non-`)` characters and the
closing parenthesis.  Deterministic: `[^)]*` cannot cross the first `)`. -/
def parenPart (l : List Char) : Option (List Char × List Char) :=
  let ws := l.takeWhile isWs
  let r := l.dropWhile isWs
  match r with
  | '(' :: r' =>
    let inner := r'.takeWhile (· != ')')
    let r'' := r'.dropWhile (· != ')')
    match r'' with
    | ')' :: r3 => some (ws ++ '(' :: (inner ++ [')']), r3)
    | _ => none
  | _ => none

/-- The tail `\s+(\d+)\s+(points?)` of the pair regex (greedy, with the
trailing optional `s` taken when present); returns groups 2 and 3 and the
rest of the input. -/
def pairTail (l : List Char) : Option (List Char × List Char × List Char) :=
  let ws1 := l.takeWhile isWs
  let r1 := l.dropWhile isWs
  if ws1 = [] then none
  else
    let g2 := r1.takeWhile Char.isDigit
    let r2 := r1.dropWhile Char.isDigit
    if g2 = [] then none
    else
      let ws2 := r2.takeWhile isWs
      let r3 := r2.dropWhile isWs
      if ws2 = [] then none
      else
        match matchCI (str "point") r3 with
        | none => none
        | some (pt, r4) =>
          match r4 with
          | c :: r5 =>
            if c.toLower = 's' then some (g2, pt ++ [c], r5)
            else some (g2, pt, c :: r5)
          | [] => some (g2, pt, [])

/-- Matching the pair regex
`(Exercice\s+\d+(?:\s*\([^)]*\))?)\s+(\d+)\s+(points?)` (IGNORECASE) at
the start of the input: literal `Exercice`, whitespace, digits (all
greedy; shortening them cannot help, as the respective continuations
would then start with the wrong character class), the optional
parenthesised group — with the engine's fallback to the empty optional
when the tail fails after it — and the tail.  Returns (group1, group2,
group3) and the rest after the match. -/
def matchPairAt (l : List Char) :
    Option ((List Char × List Char × List Char) × List Char) :=
  match matchCI (str "Exercice") l with
  | none => none
  | some (ex, r1) =>
    let ws1 := r1.takeWhile isWs
    let r2 := r1.dropWhile isWs
    if ws1 = [] then none
    else
      let ds := r2.takeWhile Char.isDigit
      let r3 := r2.dropWhile Char.isDigit
      if ds = [] then none
      else
        let base := ex ++ ws1 ++ ds
        match parenPart r3 with
        | some (pp, r4) =>
          match pairTail r4 with
          | some (g2, g3, r5) => some ((base ++ pp, g2, g3), r5)
          | none =>
            match pairTail r3 with
            | some (g2, g3, r5) => some ((base, g2, g3), r5)
            | none => none
        | none =>
          match pairTail r3 with
          | some (g2, g3, r5) => some ((base, g2, g3), r5)
          | none => none

/-- `pair_re.finditer`: leftmost matches, scanning resumes after each
match.  The fuel starts at the input length; every step consumes at least
one character, so this is exact. -/
def finditerPairs : Nat → List Char → List (List (List Char))
  | 0, _ => []
  | _ + 1, [] => []
  | fuel + 1, c :: rest =>
    match matchPairAt (c :: rest) with
    | some ((g1, g2, g3), after) =>
      [stripWs g1, stripWs g2 ++ ' ' :: stripWs g3] :: finditerPairs fuel after
    | none => finditerPairs fuel rest

/-- `parse_exercises_table` from `classification.py`: a case-sensitive
substring guard on `"Exercice"` and `"points"`, then case-insensitive
regex extraction of all `(label, "<points> point(s)")` pairs. -/
def parse_exercises_table (text : List Char) : List (List (List Char)) :=
  if containsSub (str "Exercice") text && containsSub (str "points") text then
    finditerPairs text.length text
  else []

/-! ### `is_numeric_row` -/

/-- Python's `str.split()`: split on whitespace runs, dropping empties. -/
def splitWsGo (acc : List Char) : List Char → List (List Char)
  | [] => if acc = [] then [] else [acc.reverse]
  | c :: rest =>
    if isWs c then
      if acc = [] then splitWsGo [] rest
      else acc.reverse :: splitWsGo [] rest
    else splitWsGo (c :: acc) rest

/-- Python's `str.split()`. -/
def splitWs (l : List Char) : List (List Char) := splitWsGo [] l

/-- Token matching `^[0-9]+$`. -/
def isIntToken (t : List Char) : Bool := !t.isEmpty && t.all Char.isDigit

/-- Token matching `^[0-9]+[.,][0-9]+$`. -/
def isDecToken (t : List Char) : Bool :=
  let d1 := t.takeWhile Char.isDigit
  let r1 := t.dropWhile Char.isDigit
  match r1 with
  | c :: r2 =>
    (c == '.' || c == ',') && !d1.isEmpty && !r2.isEmpty && r2.all Char.isDigit
  | [] => false

/-- The character class `[𝑁𝑓𝑔𝑥𝑦𝑛Nfgxyn]`. -/
def mathVarChars : List Char :=
  ['𝑁', '𝑓', '𝑔', '𝑥', '𝑦', '𝑛', 'N', 'f', 'g', 'x', 'y', 'n']

/-- Token matching `^[𝑁𝑓𝑔𝑥𝑦𝑛Nfgxyn]{1}$`. -/
def isVarToken (t : List Char) : Bool :=
  match t with
  | [c] => mathVarChars.contains c
  | _ => false

/-- `is_numeric_row` from `classification.py`: 2 to 5 whitespace-separated
tokens, each an integer, a decimal number or a single variable letter. -/
def is_numeric_row (text : List Char) : Bool :=
  let tokens := splitWs (stripWs text)
  if tokens.length < 2 || 5 < tokens.length then false
  else tokens.all fun t => isIntToken t || isDecToken t || isVarToken t

/-! ### The scoreboard regex `(Exercice\s+\d+).*?(\d+)\s+points?` -/

/-- The tail `(\d+)\s+points?` of the scoreboard regex: greedy digits,
whitespace, and the literal `point` (the optional `s` does not affect the
groups). -/
def tailScore (l : List Char) : Option (List Char) :=
  let g2 := l.takeWhile Char.isDigit
  let r1 := l.dropWhile Char.isDigit
  if g2 = [] then none
  else
    let ws := r1.takeWhile isWs
    let r2 := r1.dropWhile isWs
    if ws = [] then none
    else
      match matchCI (str "point") r2 with
      | some _ => some g2
      | none => none

/-- The lazy `.*?` of the scoreboard regex: try the tail at the current
position first, then consume one (non-newline) character and retry. -/
def lazyScan : List Char → Option (List Char)
  | [] => none
  | c :: rest =>
    match tailScore (c :: rest) with
    | some g2 => some g2
    | none => if c = '\n' then none else lazyScan rest

/-- Backtracking over the greedy `\d+` of group 1 of the scoreboard regex:
try the maximal digit run first, then release digits one by one into the
following `.*?`. -/
def tryDigits (base ds rest : List Char) : Nat → Option (List Char × List Char)
  | 0 => none
  | k + 1 =>
    match lazyScan (ds.drop (k + 1) ++ rest) with
    | some g2 => some (base ++ ds.take (k + 1), g2)
    | none => tryDigits base ds rest k

/-- Matching the scoreboard regex at the start of the input; returns
(group 1, group 2). -/
def matchScoreAt (l : List Char) : Option (List Char × List Char) :=
  match matchCI (str "Exercice") l with
  | none => none
  | some (ex, r1) =>
    let ws := r1.takeWhile isWs
    let r2 := r1.dropWhile isWs
    if ws = [] then none
    else
      let ds := r2.takeWhile Char.isDigit
      let r3 := r2.dropWhile Char.isDigit
      if ds = [] then none
      else tryDigits (ex ++ ws) ds r3 ds.length

/-- `exercise_pattern.search`: leftmost match of the scoreboard regex. -/
def searchScore : List Char → Option (List Char × List Char)
  | [] => none
  | c :: rest =>
    match matchScoreAt (c :: rest) with
    | some r => some r
    | none => searchScore rest

/-! ### Claim C5 -/

/-- C5 counterexample: extraction is not independent of letter case.  The
regex itself is compiled with IGNORECASE, but the function first checks
for the case-sensitive literal substrings `"Exercice"` and `"points"`; an
all-lowercase `"exercice 1 5 points"` hits that guard and yields no rows,
while the capitalized variant yields one row. -/
theorem C5_counterexample :
    parse_exercises_table (str "exercice 1 5 points") = [] ∧
      parse_exercises_table (str "Exercice 1 5 points") =
        [[str "Exercice 1", str "5 points"]] := by decide

/-- C5 (amended): provided the text contains the case-sensitive literal
substrings `"Exercice"` and `"points"` (the function's guard), extraction
of the `"Exercice N [(...)] <points> point(s)"` pairs is case-insensitive
and returns the ordered `[label, "<points> point(s)"]` rows; on the
spec's example it returns
`[["Exercice 1 (bonus)", "5 points"], ["Exercice 2", "10 point"]]`, and
an upper-case second pair is still extracted (with its original casing)
as long as the guard is satisfied. -/
theorem C5_parse_exercises_table :
    parse_exercises_table (str "Exercice 1 (bonus) 5 points Exercice 2 10 point") =
      [[str "Exercice 1 (bonus)", str "5 points"],
       [str "Exercice 2", str "10 point"]] ∧
    parse_exercises_table (str "Exercice 1 (bonus) 5 points EXERCICE 2 10 POINT") =
      [[str "Exercice 1 (bonus)", str "5 points"],
       [str "EXERCICE 2", str "10 POINT"]] := by decide

/-! ### Data model (`conversion_models.py`) -/

/-- A bounding box `(x0, y0, x1, y1)`. -/
abbrev BBox : Type := ℚ × ℚ × ℚ × ℚ

/-- `TextBlock` from `conversion_models.py`.  The `spans` field (a list of
loosely-typed Python dicts, default `None`) is not read by any verified
component and is not modelled. -/
structure TextBlock where
  text : List Char
  fontsize : ℚ
  page : Int
  order : Int
  y_coord : ℚ
  indent_x : ℚ
  styled_html : List Char
  bbox : BBox
deriving DecidableEq

/-- `ImageBlock` from `conversion_models.py` (`data` models the raw
bytes). -/
structure ImageBlock where
  data : List Nat
  page : Int
  order : Int
  ext : List Char
  y_coord : ℚ
  bbox : BBox
  alt_texts : Option (List (List Char))
deriving DecidableEq

/-- The payload of a `ContentItem`; the Python `type` string field
(`'text'` / `'image'` / `'cluster-image'`, the only types the pipeline
constructs) is represented by the constructor. -/
inductive ItemContent
  | text (tb : TextBlock)
  | image (ib : ImageBlock)
  | clusterImage (ib : ImageBlock)
deriving DecidableEq

/-- `ContentItem` from `conversion_models.py`. -/
structure ContentItem where
  page : Int
  order : Int
  y_coord : ℚ
  content : ItemContent
deriving DecidableEq

/-- `TableBlock` from `conversion_models.py`. -/
structure TableBlock where
  page : Int
  order : Int
  y_coord : ℚ
  rows : List (List (List Char))
  bbox : BBox
deriving DecidableEq

/-- `item.type == 'text'`. -/
def ContentItem.isText (it : ContentItem) : Bool :=
  match it.content with
  | .text _ => true
  | _ => false

/-! ### `bbox_iou` (`extraction.py`) -/

/-- `bbox_iou` from `extraction.py`: intersection-over-union of two
bounding boxes; `0` when the intersection rectangle is degenerate or the
union area is non-positive. -/
def bbox_iou (bbox1 bbox2 : BBox) : ℚ :=
  match bbox1, bbox2 with
  | (x01, y01, x11, y11), (x02, y02, x12, y12) =>
    if min x11 x12 ≤ max x01 x02 ∨ min y11 y12 ≤ max y01 y02 then 0
    else
      if (x11 - x01) * (y11 - y01) + (x12 - x02) * (y12 - y02) -
          (min x11 x12 - max x01 x02) * (min y11 y12 - max y01 y02) ≤ 0 then 0
      else
        (min x11 x12 - max x01 x02) * (min y11 y12 - max y01 y02) /
          ((x11 - x01) * (y11 - y01) + (x12 - x02) * (y12 - y02) -
           (min x11 x12 - max x01 x02) * (min y11 y12 - max y01 y02))

/-- A well-formed bounding box: `x0 ≤ x1` and `y0 ≤ y1`. -/
def wfBBox (bb : BBox) : Prop := bb.1 ≤ bb.2.2.1 ∧ bb.2.1 ≤ bb.2.2.2

/-- Two boxes have no overlapping interior when the intersection rectangle
is degenerate in at least one axis. -/
def noInteriorOverlap (a b : BBox) : Prop :=
  min a.2.2.1 b.2.2.1 ≤ max a.1 b.1 ∨ min a.2.2.2 b.2.2.2 ≤ max a.2.1 b.2.1

/-! ### Claim C10 -/

/-- C10: for well-formed boxes, `bbox_iou` is symmetric, its value lies in
`[0, 1]`, and it is `0` whenever the boxes have no overlapping
interior. -/
theorem C10_bbox_iou (a b : BBox) (ha : wfBBox a) (hb : wfBBox b) :
    bbox_iou a b = bbox_iou b a ∧ 0 ≤ bbox_iou a b ∧ bbox_iou a b ≤ 1 ∧
      (noInteriorOverlap a b → bbox_iou a b = 0) := by
  obtain ⟨ax0, ay0, ax1, ay1⟩ := a
  obtain ⟨bx0, by0, bx1, by1⟩ := b
  obtain ⟨hax, hay⟩ := ha
  obtain ⟨hbx, hby⟩ := hb
  simp only at hax hay hbx hby
  have hsymm : bbox_iou (ax0, ay0, ax1, ay1) (bx0, by0, bx1, by1) =
      bbox_iou (bx0, by0, bx1, by1) (ax0, ay0, ax1, ay1) := by
    dsimp only [bbox_iou]
    rw [min_comm bx1 ax1, max_comm bx0 ax0, min_comm by1 ay1, max_comm by0 ay0,
      add_comm ((bx1 - bx0) * (by1 - by0)) ((ax1 - ax0) * (ay1 - ay0))]
  refine ⟨hsymm, ?_, ?_, ?_⟩
  · dsimp only [bbox_iou]
    split
    · exact le_refl 0
    · split
      · exact le_refl 0
      · rename_i hov hun
        push_neg at hov hun
        obtain ⟨hx, hy⟩ := hov
        have hiw : 0 < min ax1 bx1 - max ax0 bx0 := by linarith
        have hih : 0 < min ay1 by1 - max ay0 by0 := by linarith
        exact div_nonneg (le_of_lt (mul_pos hiw hih)) (le_of_lt hun)
  · dsimp only [bbox_iou]
    split
    · exact zero_le_one
    · split
      · exact zero_le_one
      · rename_i hov hun
        push_neg at hov hun
        obtain ⟨hx, hy⟩ := hov
        rw [div_le_one hun]
        have h1 : min ax1 bx1 - max ax0 bx0 ≤ ax1 - ax0 := by
          have := min_le_left ax1 bx1
          have := le_max_left ax0 bx0
          linarith
        have h2 : min ay1 by1 - max ay0 by0 ≤ ay1 - ay0 := by
          have := min_le_left ay1 by1
          have := le_max_left ay0 by0
          linarith
        have h3 : min ax1 bx1 - max ax0 bx0 ≤ bx1 - bx0 := by
          have := min_le_right ax1 bx1
          have := le_max_right ax0 bx0
          linarith
        have h4 : min ay1 by1 - max ay0 by0 ≤ by1 - by0 := by
          have := min_le_right ay1 by1
          have := le_max_right ay0 by0
          linarith
        have hiw : 0 < min ax1 bx1 - max ax0 bx0 := by linarith
        have hih : 0 < min ay1 by1 - max ay0 by0 := by linarith
        have hle2 : (min ax1 bx1 - max ax0 bx0) * (min ay1 by1 - max ay0 by0) ≤
            (bx1 - bx0) * (by1 - by0) :=
          mul_le_mul h3 h4 (le_of_lt hih) (by linarith)
        nlinarith [mul_le_mul h1 h2 (le_of_lt hih) (by linarith : (0:ℚ) ≤ ax1 - ax0)]
  · intro hno
    dsimp only [noInteriorOverlap] at hno
    dsimp only [bbox_iou]
    rw [if_pos hno]

/-- C10 witness: the theorem applied to two concrete well-formed boxes. -/
theorem C10_witness :
    bbox_iou ((0 : ℚ), (0 : ℚ), (2 : ℚ), (1 : ℚ)) ((0 : ℚ), (0 : ℚ), (1 : ℚ), (1 : ℚ)) =
        bbox_iou ((0 : ℚ), (0 : ℚ), (1 : ℚ), (1 : ℚ)) ((0 : ℚ), (0 : ℚ), (2 : ℚ), (1 : ℚ)) ∧
      0 ≤ bbox_iou ((0 : ℚ), (0 : ℚ), (2 : ℚ), (1 : ℚ)) ((0 : ℚ), (0 : ℚ), (1 : ℚ), (1 : ℚ)) ∧
      bbox_iou ((0 : ℚ), (0 : ℚ), (2 : ℚ), (1 : ℚ)) ((0 : ℚ), (0 : ℚ), (1 : ℚ), (1 : ℚ)) ≤ 1 ∧
      (noInteriorOverlap ((0 : ℚ), (0 : ℚ), (2 : ℚ), (1 : ℚ)) ((0 : ℚ), (0 : ℚ), (1 : ℚ), (1 : ℚ)) →
        bbox_iou ((0 : ℚ), (0 : ℚ), (2 : ℚ), (1 : ℚ)) ((0 : ℚ), (0 : ℚ), (1 : ℚ), (1 : ℚ)) = 0) :=
  C10_bbox_iou _ _ (by constructor <;> norm_num) (by constructor <;> norm_num)

/-! ### `dedupe_items` (`extraction.py`) -/

/-- The (normalized text, bbox) comparison data of the text items, in scan
order. -/
def textPairs (its : List ContentItem) : List (List Char × BBox) :=
  its.filterMap fun it =>
    match it.content with
    | .text tb => some (normalize_text tb.text, tb.bbox)
    | _ => none

/-- Insertion-ordered grouping by page (Python dict `setdefault` +
append). -/
def addToPage (acc : List (Int × List ContentItem)) (it : ContentItem) :
    List (Int × List ContentItem) :=
  match acc with
  | [] => [(it.page, [it])]
  | (p, l) :: rest =>
    if p = it.page then (p, l ++ [it]) :: rest else (p, l) :: addToPage rest it

/-- `by_page` from `dedupe_items`. -/
def groupByPage (items : List ContentItem) : List (Int × List ContentItem) :=
  items.foldl addToPage []

/-- The duplicate criterion of `dedupe_items`: equal normalized text and
IoU at least the threshold (`bbox_iou` called with the earlier item's box
first). -/
def isDupPair (θ : ℚ) (txts : List (List Char × BBox)) (i j : Nat) : Prop :=
  (txts.getD j ([], (0, 0, 0, 0))).1 = (txts.getD i ([], (0, 0, 0, 0))).1 ∧
    θ ≤ bbox_iou (txts.getD i ([], (0, 0, 0, 0))).2 (txts.getD j ([], (0, 0, 0, 0))).2

instance (θ : ℚ) (txts : List (List Char × BBox)) (i j : Nat) :
    Decidable (isDupPair θ txts i j) :=
  inferInstanceAs (Decidable (_ ∧ _))

/-- The inner `for j in range(i + 1, n)` loop of `dedupe_items`, marking
later duplicates of the (kept) item `i`. -/
def innerMark (θ : ℚ) (txts : List (List Char × BBox)) (i : Nat)
    (removed : List Nat) : List Nat :=
  (List.range' (i + 1) (txts.length - (i + 1))).foldl
    (fun rem j =>
      if j ∈ rem then rem
      else if isDupPair θ txts i j then rem ++ [j] else rem)
    removed

/-- The outer `for i, it_i in enumerate(text_items)` loop of
`dedupe_items`: the final set of removed indices. -/
def dedupRemoved (θ : ℚ) (txts : List (List Char × BBox)) : List Nat :=
  (List.range txts.length).foldl
    (fun rem i => if i ∈ rem then rem else innerMark θ txts i rem) []

/-- Per-page body of `dedupe_items`: kept text items (scan order,
non-removed) followed by the non-text items. -/
def dedupePage (θ : ℚ) (pitems : List ContentItem) : List ContentItem :=
  let textItems := pitems.filter ContentItem.isText
  let others := pitems.filter fun it => !(ContentItem.isText it)
  let removed := dedupRemoved θ (textPairs textItems)
  (textItems.enum.filterMap fun pr =>
    if pr.1 ∈ removed then none else some pr.2) ++ others

/-- The final sort key `(page, order, y_coord)` of `dedupe_items`
(lexicographic, as Python tuple comparison). -/
def keyLe (a b : ContentItem) : Prop :=
  a.page < b.page ∨ (a.page = b.page ∧
    (a.order < b.order ∨ (a.order = b.order ∧ a.y_coord ≤ b.y_coord)))

instance : DecidableRel keyLe := fun _ _ =>
  inferInstanceAs (Decidable (_ ∨ (_ ∧ (_ ∨ (_ ∧ _)))))

instance : IsTotal ContentItem keyLe where
  total a b := by
    unfold keyLe
    rcases lt_trichotomy a.page b.page with h | h | h
    · exact Or.inl (Or.inl h)
    · rcases lt_trichotomy a.order b.order with h' | h' | h'
      · exact Or.inl (Or.inr ⟨h, Or.inl h'⟩)
      · rcases le_total a.y_coord b.y_coord with h'' | h''
        · exact Or.inl (Or.inr ⟨h, Or.inr ⟨h', h''⟩⟩)
        · exact Or.inr (Or.inr ⟨h.symm, Or.inr ⟨h'.symm, h''⟩⟩)
      · exact Or.inr (Or.inr ⟨h.symm, Or.inl h'⟩)
    · exact Or.inr (Or.inl h)

instance : IsTrans ContentItem keyLe where
  trans a b c hab hbc := by
    unfold keyLe at *
    rcases hab with h1 | ⟨h1, h2⟩
    · rcases hbc with h3 | ⟨h3, _⟩
      · exact Or.inl (h1.trans h3)
      · exact Or.inl (h3 ▸ h1)
    · rcases hbc with h3 | ⟨h3, h4⟩
      · exact Or.inl (h1 ▸ h3)
      · refine Or.inr ⟨h1.trans h3, ?_⟩
        rcases h2 with h2 | ⟨h2, h2'⟩
        · rcases h4 with h4 | ⟨h4, _⟩
          · exact Or.inl (h2.trans h4)
          · exact Or.inl (h4 ▸ h2)
        · rcases h4 with h4 | ⟨h4, h4'⟩
          · exact Or.inl (h2 ▸ h4)
          · exact Or.inr ⟨h2.trans h4, h2'.trans h4'⟩

/-- `dedupe_items` from `extraction.py` (threshold default `0.85` at the
call sites): per-page dedup of text items, non-text items untouched, final
sort by `(page, order, y_coord)` (stable, like Python's sort). -/
def dedupe_items (items : List ContentItem) (θ : ℚ) : List ContentItem :=
  List.insertionSort keyLe
    (((groupByPage items).map fun pr => dedupePage θ pr.2).flatten)

/-! ### Refinement of the dedup loops -/

/-- The removed set after the first `m` outer iterations. -/
def partialRemoved (θ : ℚ) (txts : List (List Char × BBox)) (m : Nat) : List Nat :=
  (List.range m).foldl
    (fun rem i => if i ∈ rem then rem else innerMark θ txts i rem) []

theorem dedupRemoved_eq_partialRemoved (θ : ℚ) (txts : List (List Char × BBox)) :
    dedupRemoved θ txts = partialRemoved θ txts txts.length := rfl

theorem innerFold_mem (θ : ℚ) (txts : List (List Char × BBox)) (i : Nat) :
    ∀ (js : List Nat) (rem : List Nat) (j : Nat),
      (j ∈ js.foldl
          (fun rem j =>
            if j ∈ rem then rem
            else if isDupPair θ txts i j then rem ++ [j] else rem) rem) ↔
        j ∈ rem ∨ (j ∈ js ∧ isDupPair θ txts i j) := by
  intro js
  induction js with
  | nil => intro rem j; simp
  | cons j0 js' ih =>
    intro rem j
    simp only [List.foldl_cons]
    by_cases h0 : j0 ∈ rem
    · rw [if_pos h0, ih]
      constructor
      · rintro (h | ⟨hj, hd⟩)
        · exact Or.inl h
        · exact Or.inr ⟨List.mem_cons_of_mem _ hj, hd⟩
      · rintro (h | ⟨hj, hd⟩)
        · exact Or.inl h
        · rcases List.mem_cons.mp hj with rfl | hj'
          · exact Or.inl h0
          · exact Or.inr ⟨hj', hd⟩
    · rw [if_neg h0]
      by_cases hd0 : isDupPair θ txts i j0
      · rw [if_pos hd0, ih]
        constructor
        · rintro (h | ⟨hj, hd⟩)
          · rcases List.mem_append.mp h with h | h
            · exact Or.inl h
            · simp at h
              subst h
              exact Or.inr ⟨List.mem_cons_self _ _, hd0⟩
          · exact Or.inr ⟨List.mem_cons_of_mem _ hj, hd⟩
        · rintro (h | ⟨hj, hd⟩)
          · exact Or.inl (List.mem_append.mpr (Or.inl h))
          · rcases List.mem_cons.mp hj with rfl | hj'
            · exact Or.inl (List.mem_append.mpr (Or.inr (by simp)))
            · exact Or.inr ⟨hj', hd⟩
      · rw [if_neg hd0, ih]
        constructor
        · rintro (h | ⟨hj, hd⟩)
          · exact Or.inl h
          · exact Or.inr ⟨List.mem_cons_of_mem _ hj, hd⟩
        · rintro (h | ⟨hj, hd⟩)
          · exact Or.inl h
          · rcases List.mem_cons.mp hj with rfl | hj'
            · exact absurd hd hd0
            · exact Or.inr ⟨hj', hd⟩

theorem mem_innerMark (θ : ℚ) (txts : List (List Char × BBox)) (i : Nat)
    (rem : List Nat) (j : Nat) :
    j ∈ innerMark θ txts i rem ↔
      j ∈ rem ∨ (i < j ∧ j < txts.length ∧ isDupPair θ txts i j) := by
  unfold innerMark
  rw [innerFold_mem]
  constructor
  · rintro (h | ⟨hj, hd⟩)
    · exact Or.inl h
    · rw [List.mem_range'_1] at hj
      exact Or.inr ⟨by omega, by omega, hd⟩
  · rintro (h | ⟨hij, hjn, hd⟩)
    · exact Or.inl h
    · exact Or.inr ⟨List.mem_range'_1.mpr ⟨by omega, by omega⟩, hd⟩

theorem partialRemoved_succ (θ : ℚ) (txts : List (List Char × BBox)) (m : Nat) :
    partialRemoved θ txts (m + 1) =
      if m ∈ partialRemoved θ txts m then partialRemoved θ txts m
      else innerMark θ txts m (partialRemoved θ txts m) := by
  unfold partialRemoved
  rw [List.range_succ, List.foldl_append]
  rfl

theorem mem_partialRemoved (θ : ℚ) (txts : List (List Char × BBox)) :
    ∀ (m : Nat) (j : Nat),
      j ∈ partialRemoved θ txts m ↔
        ∃ i, i < m ∧ i ∉ partialRemoved θ txts i ∧ i < j ∧
          j < txts.length ∧ isDupPair θ txts i j := by
  intro m
  induction m with
  | zero => intro j; simp [partialRemoved]
  | succ m ih =>
    intro j
    rw [partialRemoved_succ]
    by_cases hm : m ∈ partialRemoved θ txts m
    · rw [if_pos hm, ih]
      constructor
      · rintro ⟨i, hi, h⟩
        exact ⟨i, Nat.lt_succ_of_lt hi, h⟩
      · rintro ⟨i, hi, hnot, h⟩
        rcases Nat.lt_succ_iff_lt_or_eq.mp hi with hi' | rfl
        · exact ⟨i, hi', hnot, h⟩
        · exact absurd hm hnot
    · rw [if_neg hm, mem_innerMark, ih]
      constructor
      · rintro (⟨i, hi, h⟩ | ⟨hij, hjn, hd⟩)
        · exact ⟨i, Nat.lt_succ_of_lt hi, h⟩
        · exact ⟨m, Nat.lt_succ_self m, hm, hij, hjn, hd⟩
      · rintro ⟨i, hi, hnot, h⟩
        rcases Nat.lt_succ_iff_lt_or_eq.mp hi with hi' | rfl
        · exact Or.inl ⟨i, hi', hnot, h⟩
        · exact Or.inr h

theorem partialRemoved_stable (θ : ℚ) (txts : List (List Char × BBox))
    {i m : Nat} (him : i ≤ m) :
    (i ∈ partialRemoved θ txts m ↔ i ∈ partialRemoved θ txts i) := by
  rw [mem_partialRemoved, mem_partialRemoved]
  constructor
  · rintro ⟨i', _, hnot, hlt, hjn, hd⟩
    exact ⟨i', hlt, hnot, hlt, hjn, hd⟩
  · rintro ⟨i', hi', hnot, h⟩
    exact ⟨i', lt_of_lt_of_le hi' him, hnot, h⟩

theorem removed_iff (θ : ℚ) (txts : List (List Char × BBox)) {j : Nat}
    (hj : j < txts.length) :
    j ∈ dedupRemoved θ txts ↔
      ∃ i, i < j ∧ i ∉ dedupRemoved θ txts ∧ isDupPair θ txts i j := by
  rw [dedupRemoved_eq_partialRemoved, mem_partialRemoved]
  constructor
  · rintro ⟨i, _, hnot, hij, _, hd⟩
    have hile : i ≤ txts.length := le_of_lt (lt_trans hij hj)
    exact ⟨i, hij,
      fun h => hnot ((partialRemoved_stable θ txts hile).mp h), hd⟩
  · rintro ⟨i, hij, hnot, hd⟩
    have hile : i ≤ txts.length := le_of_lt (lt_trans hij hj)
    exact ⟨i, lt_trans hij hj,
      fun h => hnot ((partialRemoved_stable θ txts hile).mpr h), hij, hj, hd⟩

/-- The specification predicate behind the dedup: the list of kept indices
below `m`, built by the leader rule of the spec — an index is kept exactly
when no earlier kept index is an equal-text, high-IoU duplicate of it. -/
def keptUpTo (θ : ℚ) (txts : List (List Char × BBox)) : Nat → List Nat
  | 0 => []
  | j + 1 =>
    if ∀ i ∈ keptUpTo θ txts j, ¬ isDupPair θ txts i j then
      keptUpTo θ txts j ++ [j]
    else keptUpTo θ txts j

theorem mem_keptUpTo (θ : ℚ) (txts : List (List Char × BBox)) :
    ∀ (m : Nat) (i : Nat),
      i ∈ keptUpTo θ txts m ↔
        i < m ∧ ∀ i' ∈ keptUpTo θ txts i, ¬ isDupPair θ txts i' i := by
  intro m
  induction m with
  | zero => intro i; simp [keptUpTo]
  | succ m ih =>
    intro i
    simp only [keptUpTo]
    by_cases hc : ∀ i' ∈ keptUpTo θ txts m, ¬ isDupPair θ txts i' m
    · rw [if_pos hc]
      constructor
      · intro h
        rcases List.mem_append.mp h with h | h
        · obtain ⟨hi, hP⟩ := (ih i).mp h
          exact ⟨Nat.lt_succ_of_lt hi, hP⟩
        · simp at h
          subst h
          exact ⟨Nat.lt_succ_self i, hc⟩
      · rintro ⟨hi, hP⟩
        rcases Nat.lt_succ_iff_lt_or_eq.mp hi with hi' | rfl
        · exact List.mem_append.mpr (Or.inl ((ih i).mpr ⟨hi', hP⟩))
        · exact List.mem_append.mpr (Or.inr (by simp))
    · rw [if_neg hc]
      rw [ih]
      constructor
      · rintro ⟨hi, hP⟩
        exact ⟨Nat.lt_succ_of_lt hi, hP⟩
      · rintro ⟨hi, hP⟩
        rcases Nat.lt_succ_iff_lt_or_eq.mp hi with hi' | rfl
        · exact ⟨hi', hP⟩
        · exact absurd hP hc

theorem kept_bridge (θ : ℚ) (txts : List (List Char × BBox)) :
    ∀ j, j < txts.length →
      (j ∉ dedupRemoved θ txts ↔ j ∈ keptUpTo θ txts txts.length) := by
  intro j
  induction j using Nat.strong_induction_on with
  | _ j ihs =>
    intro hj
    rw [mem_keptUpTo]
    constructor
    · intro hnot
      refine ⟨hj, ?_⟩
      intro i' hi' hd
      obtain ⟨hi'j, hP⟩ := (mem_keptUpTo θ txts j i').mp hi'
      have hi'n : i' < txts.length := lt_trans hi'j hj
      have hi'kept : i' ∈ keptUpTo θ txts txts.length :=
        (mem_keptUpTo θ txts txts.length i').mpr ⟨hi'n, hP⟩
      have hi'notrem : i' ∉ dedupRemoved θ txts :=
        (ihs i' hi'j hi'n).mpr hi'kept
      exact hnot ((removed_iff θ txts hj).mpr ⟨i', hi'j, hi'notrem, hd⟩)
    · rintro ⟨_, hP⟩ hrem
      obtain ⟨i, hij, hinot, hd⟩ := (removed_iff θ txts hj).mp hrem
      have hin : i < txts.length := lt_trans hij hj
      have hikept : i ∈ keptUpTo θ txts txts.length :=
        (ihs i hij hin).mp hinot
      obtain ⟨_, hPi⟩ := (mem_keptUpTo θ txts txts.length i).mp hikept
      have : i ∈ keptUpTo θ txts j :=
        (mem_keptUpTo θ txts j i).mpr ⟨hij, hPi⟩
      exact hP i this hd

theorem filter_range_eq_keptUpTo (θ : ℚ) (txts : List (List Char × BBox)) :
    ∀ m, m ≤ txts.length →
      (List.range m).filter (fun j => decide (j ∉ dedupRemoved θ txts)) =
        keptUpTo θ txts m := by
  intro m
  induction m with
  | zero => intro _; rfl
  | succ m ih =>
    intro hm
    have hmn : m < txts.length := hm
    rw [List.range_succ, List.filter_append, ih (le_of_lt hmn)]
    simp only [keptUpTo]
    have hcond : (m ∉ dedupRemoved θ txts) ↔
        ∀ i ∈ keptUpTo θ txts m, ¬ isDupPair θ txts i m := by
      rw [kept_bridge θ txts m hmn, mem_keptUpTo]
      constructor
      · rintro ⟨_, hP⟩
        intro i hi hd
        obtain ⟨him, hPi⟩ := (mem_keptUpTo θ txts m i).mp hi
        exact hP i ((mem_keptUpTo θ txts m i).mpr ⟨him, hPi⟩) hd
      · intro hP
        exact ⟨hmn, hP⟩
    by_cases hc : ∀ i ∈ keptUpTo θ txts m, ¬ isDupPair θ txts i m
    · rw [if_pos hc]
      have : m ∉ dedupRemoved θ txts := hcond.mpr hc
      simp [this]
    · rw [if_neg hc]
      have : ¬ (m ∉ dedupRemoved θ txts) := fun h => hc (hcond.mp h)
      simp at this
      simp [this]


/-! ### Structural lemmas for `dedupe_items` -/

theorem addToPage_perm (acc : List (Int × List ContentItem)) (it : ContentItem) :
    List.Perm ((addToPage acc it).map Prod.snd).flatten
      ((acc.map Prod.snd).flatten ++ [it]) := by
  induction acc with
  | nil => simp [addToPage]
  | cons pr rest ih =>
    obtain ⟨p, l⟩ := pr
    simp only [addToPage]
    split
    · simp only [List.map_cons, List.flatten_cons]
      rw [show (l ++ [it]) ++ (rest.map Prod.snd).flatten =
            l ++ ([it] ++ (rest.map Prod.snd).flatten) by simp,
          show (l ++ (rest.map Prod.snd).flatten) ++ [it] =
            l ++ ((rest.map Prod.snd).flatten ++ [it]) by simp]
      exact List.Perm.append_left l List.perm_append_comm
    · simp only [List.map_cons, List.flatten_cons]
      rw [show (l ++ (rest.map Prod.snd).flatten) ++ [it] =
            l ++ ((rest.map Prod.snd).flatten ++ [it]) by simp]
      exact List.Perm.append_left l ih

theorem groupByPage_perm (items : List ContentItem) :
    List.Perm ((groupByPage items).map Prod.snd).flatten items := by
  induction items using List.reverseRecOn with
  | nil => simp [groupByPage]
  | append_singleton l a ih =>
    have hfold : groupByPage (l ++ [a]) = addToPage (groupByPage l) a := by
      unfold groupByPage
      rw [List.foldl_append]
      rfl
    rw [hfold]
    exact (addToPage_perm _ _).trans (List.Perm.append_right [a] ih)

theorem count_dedupePage (θ : ℚ) (pitems : List ContentItem) {e : ContentItem}
    (he : e.isText = false) :
    (dedupePage θ pitems).count e = pitems.count e := by
  unfold dedupePage
  rw [List.count_append]
  have h1 : ((pitems.filter ContentItem.isText).enum.filterMap fun pr =>
      if pr.1 ∈ dedupRemoved θ (textPairs (pitems.filter ContentItem.isText))
      then none else some pr.2).count e = 0 := by
    rw [List.count_eq_zero]
    intro hmem
    obtain ⟨pr, hpr, hg⟩ := List.mem_filterMap.mp hmem
    have hpe : pr.2 = e := by
      by_cases h : pr.1 ∈ dedupRemoved θ (textPairs (pitems.filter ContentItem.isText))
      · simp [h] at hg
      · simp [h] at hg
        exact hg
    have hmem2 : pr.2 ∈ pitems.filter ContentItem.isText := by
      have := List.mem_map_of_mem Prod.snd hpr
      rwa [List.enum_map_snd] at this
    have htext := List.of_mem_filter hmem2
    rw [hpe, he] at htext
    exact Bool.false_ne_true htext
  have h2 : (pitems.filter fun it => !(ContentItem.isText it)).count e =
      pitems.count e :=
    List.count_filter (by simp [he])
  rw [h1, h2, Nat.zero_add]

/-! ### Claim C7 -/

/-- A text item; `dupItemB`/`dupItemC` below share its normalized text. -/
def dupItemA : ContentItem :=
  ⟨1, 0, 5, .text ⟨str "Exemple", 10, 1, 0, 5, 0, [], (0, 0, 2, 1)⟩⟩

/-- Same text and bounding box as `dupItemA` (IoU 1), later in scan
order. -/
def dupItemB : ContentItem :=
  ⟨1, 1, 6, .text ⟨str "Exemple", 10, 1, 1, 6, 0, [], (0, 0, 2, 1)⟩⟩

/-- Same text as `dupItemA` but with a half-overlapping box (IoU 1/2). -/
def dupItemC : ContentItem :=
  ⟨1, 1, 6, .text ⟨str "Exemple", 10, 1, 1, 6, 0, [], (0, 0, 1, 1)⟩⟩

/-- C7: the dedup's removed set equals the leader-rule specification
`keptUpTo` (a later index is removed exactly when an earlier kept index of
the same page has equal normalized text and IoU at least the threshold;
the first in scan order is kept); the output is sorted by
`(page, order, y_coord)`; non-text items pass through with unchanged
multiplicities; and two identical-text same-page items collapse to the
first at IoU 1 but are both kept at IoU 1/2 under the default threshold
0.85. -/
theorem C7_dedupe_items :
    (∀ (θ : ℚ) (txts : List (List Char × BBox)),
        (List.range txts.length).filter
            (fun j => decide (j ∉ dedupRemoved θ txts)) =
          keptUpTo θ txts txts.length) ∧
    (∀ (items : List ContentItem) (θ : ℚ),
        List.Sorted keyLe (dedupe_items items θ)) ∧
    (∀ (items : List ContentItem) (θ : ℚ) (e : ContentItem),
        e.isText = false →
        (dedupe_items items θ).count e = items.count e) ∧
    dedupe_items [dupItemA, dupItemB] (17 / 20) = [dupItemA] ∧
    dedupe_items [dupItemA, dupItemC] (17 / 20) = [dupItemA, dupItemC] := by
  refine ⟨?_, ?_, ?_, by with_unfolding_all decide, by with_unfolding_all decide⟩
  · intro θ txts
    exact filter_range_eq_keptUpTo θ txts txts.length (le_refl _)
  · intro items θ
    exact List.sorted_insertionSort keyLe _
  · intro items θ e he
    unfold dedupe_items
    rw [(List.perm_insertionSort keyLe _).count_eq]
    have hgroups : ∀ (groups : List (Int × List ContentItem)),
        ((groups.map fun pr => dedupePage θ pr.2).flatten).count e =
          ((groups.map Prod.snd).flatten).count e := by
      intro groups
      induction groups with
      | nil => rfl
      | cons pr rest ih =>
        simp only [List.map_cons, List.flatten_cons, List.count_append, ih,
          count_dedupePage θ pr.2 he]
    rw [hgroups, (groupByPage_perm items).count_eq]

/-- An image item used in the C7 witness. -/
def imgItemW : ContentItem :=
  ⟨2, 0, 1, .image ⟨[0], 2, 0, str "png", 1, (0, 0, 1, 1), none⟩⟩

/-- C7 witness: the count-preservation part of the theorem applied to a
concrete non-text item. -/
theorem C7_witness :
    (dedupe_items [imgItemW, dupItemA] (17 / 20)).count imgItemW =
      ([imgItemW, dupItemA] : List ContentItem).count imgItemW :=
  C7_dedupe_items.2.2.1 [imgItemW, dupItemA] (17 / 20) imgItemW (by decide)

/-! ### Classifier (`classify_items`) -/

/-- `statistics.median`: middle element of the ascending sort, or the mean
of the two middle elements for even length (`0` on the empty list, which
the classifier never queries). -/
def median (l : List ℚ) : ℚ :=
  let s := List.insertionSort (fun a b : ℚ => a ≤ b) l
  if l.length % 2 = 1 then s.getD (l.length / 2) 0
  else (s.getD (l.length / 2 - 1) 0 + s.getD (l.length / 2) 0) / 2

/-- The classifier's output entries (the Python tuples
`("table", tb, page, tb)`, `("page-break", None, page)`,
`("image"/"cluster-image", content, page, None)` and
`("li"/"h2"/"p", text, page, content)`). -/
inductive Entry
  | table (tb : TableBlock) (page : Int)
  | pageBreak (page : Int)
  | image (ib : ImageBlock) (page : Int)
  | clusterImage (ib : ImageBlock) (page : Int)
  | li (s : List Char) (page : Int) (src : TextBlock)
  | h2 (s : List Char) (page : Int) (src : TextBlock)
  | p (s : List Char) (page : Int) (src : TextBlock)
deriving DecidableEq

/-- `entry[2]` (the page of an entry). -/
def Entry.pageOf : Entry → Int
  | .table _ pg => pg
  | .pageBreak pg => pg
  | .image _ pg => pg
  | .clusterImage _ pg => pg
  | .li _ pg _ => pg
  | .h2 _ pg _ => pg
  | .p _ pg _ => pg

/-- `tag in ('h2', 'p', 'li', 'image', 'cluster-image')` in the
post-pass. -/
def Entry.isKind : Entry → Bool
  | .table _ _ => false
  | .pageBreak _ => false
  | _ => true

/-- The marker class of `^([•\-\*☐☑✓])\s+`. -/
def bulletSymbols : List Char := ['•', '-', '*', '☐', '☑', '✓']

/-- The bullet/checkbox marker pattern `^([•\-\*☐☑✓])\s+`: returns the
marker symbol and the stripped item text after the marker whitespace. -/
def bulletMatch (tc : List Char) : Option (Char × List Char) :=
  match tc with
  | [] => none
  | c :: rest =>
    if c ∈ bulletSymbols ∧ rest.takeWhile isWs ≠ [] then
      some (c, stripWs (rest.dropWhile isWs))
    else none

/-- The classifier's loop state: current page, pending table rows and
their page / start-y / order, and the emitted entries. -/
structure ClsState where
  currentPage : Int
  rows : List (List (List Char))
  tablePage : Int
  startY : ℚ
  tableOrder : Int
  result : List Entry
deriving DecidableEq

/-- Initial classifier state (`current_page = -1`, no pending table). -/
def initState : ClsState := ⟨-1, [], -1, 0, 0, []⟩

/-- The table entry flushed from a state. -/
def mkTable (st : ClsState) : Entry :=
  .table ⟨st.tablePage, st.tableOrder, st.startY, st.rows, (0, 0, 0, 0)⟩
    st.tablePage

/-- `flush_table`: emit the accumulated rows as a table entry, if any. -/
def flushTable (st : ClsState) : ClsState :=
  if st.rows = [] then st
  else { st with result := st.result ++ [mkTable st], rows := [] }

/-- Page-change handling at the top of the classifier loop: flush the
pending table, emit a page break (except when no page has been seen,
`current_page = -1`), and switch to the item's page. -/
def pageAdjust (st : ClsState) (it : ContentItem) : ClsState :=
  if it.page ≠ st.currentPage then
    let st1 := flushTable st
    let st2 :=
      if st.currentPage ≥ 0 then
        { st1 with result := st1.result ++ [.pageBreak st.currentPage] }
      else st1
    { st2 with currentPage := it.page }
  else st

/-- The per-item body of `classify_items` (after page handling); `med` is
the median font size of all text items of the stream. -/
def stepBody (med δ : ℚ) (cap : Nat) (en : Bool) (st : ClsState)
    (it : ContentItem) : ClsState :=
  match it.content with
  | .image ib => { st with result := st.result ++ [.image ib it.page] }
  | .clusterImage ib =>
    { st with result := st.result ++ [.clusterImage ib it.page] }
  | .text tb =>
    let tc := normalize_text tb.text
    if tc = [] then st
    else if it.y_coord > 780 then st
    else
      let exRows := parse_exercises_table tc
      if exRows ≠ [] then
        let st' :=
          if st.rows = [] then
            { st with tablePage := it.page, startY := it.y_coord,
                      tableOrder := it.order }
          else st
        { st' with rows := st'.rows ++ exRows }
      else if is_numeric_row tc ∧ it.page = 6 then
        if st.rows = [] ∨
            (st.tablePage = it.page ∧ |it.y_coord - st.startY| < 50) then
          let st' :=
            if st.rows = [] then
              { st with tablePage := it.page, startY := it.y_coord,
                        tableOrder := it.order }
            else st
          { st' with rows := st'.rows ++ [splitWs tc] }
        else st
      else
        match bulletMatch tc with
        | some (sym, itemText) =>
          let st' := flushTable st
          { st' with result :=
              st'.result ++ [.li (sym :: ' ' :: itemText) it.page tb] }
        | none =>
          if en ∧ tb.fontsize - med ≥ δ ∧ tc.length ≤ cap then
            let st' := flushTable st
            { st' with result := st'.result ++ [.h2 tc it.page tb] }
          else
            let st' := flushTable st
            { st' with result := st'.result ++ [.p tc it.page tb] }

/-- One full iteration of the classifier loop. -/
def step (med δ : ℚ) (cap : Nat) (en : Bool) (st : ClsState)
    (it : ContentItem) : ClsState :=
  stepBody med δ cap en (pageAdjust st it) it

/-- Append a scoreboard row under its page key (`setdefault` +
append). -/
def scoreboardAdd (acc : List (Int × List (List (List Char)))) (pg : Int)
    (row : List (List Char)) : List (Int × List (List (List Char))) :=
  match acc with
  | [] => [(pg, [row])]
  | (p, rs) :: rest =>
    if p = pg then (p, rs ++ [row]) :: rest
    else (p, rs) :: scoreboardAdd rest pg row

/-- `scoreboard_pages`: for every paragraph entry matching the scoreboard
regex, one `[label, "<n> points"]` row, grouped by page in first-seen
order. -/
def scoreboardOf (es : List Entry) : List (Int × List (List (List Char))) :=
  es.foldl
    (fun acc e =>
      match e with
      | .p s pg _ =>
        match searchScore s with
        | some (g1, g2) =>
          scoreboardAdd acc pg [stripWs g1, stripWs g2 ++ str " points"]
        | none => acc
      | _ => acc)
    []

/-- The synthesized scoreboard table entry for a page. -/
def synthTable (pg : Int) (rows : List (List (List Char))) : Entry :=
  .table ⟨pg, 0, 0, rows, (0, 0, 0, 0)⟩ pg

/-- The injection loop of the post-pass: at the first
heading/paragraph/list/image/cluster entry of a collected page not yet
handled, insert the synthesized table just before it when the page has at
least 3 rows; mark the page handled either way. -/
def injectLoop (sb : List (Int × List (List (List Char)))) :
    List Int → List Entry → List Entry
  | _, [] => []
  | inj, e :: rest =>
    match assocFind sb e.pageOf with
    | some rows =>
      if e.isKind ∧ e.pageOf ∉ inj then
        (if 3 ≤ rows.length then [synthTable e.pageOf rows] else []) ++
          e :: injectLoop sb (e.pageOf :: inj) rest
      else e :: injectLoop sb inj rest
    | none => e :: injectLoop sb inj rest

/-- The scoreboard-injection post-pass of `classify_items`. -/
def postPass (es : List Entry) : List Entry :=
  if scoreboardOf es = [] then es else injectLoop (scoreboardOf es) [] es

/-- `classify_items` from `classification.py`. -/
def classify_items (items : List ContentItem) (min_delta : ℚ)
    (max_heading_len : Nat) (enable_titles : Bool) : List Entry :=
  if items = [] then []
  else
    let sizes := items.filterMap fun it =>
      match it.content with
      | .text tb => some tb.fontsize
      | _ => none
    if sizes = [] then []
    else
      postPass (flushTable (items.foldl
        (step (median sizes) min_delta max_heading_len enable_titles)
        initState)).result

/-! ### Claim C2 -/

/-- The image and cluster-image entries of a classifier output. -/
def imageEntries (es : List Entry) : List Entry :=
  es.filter fun e =>
    match e with
    | .image _ _ => true
    | .clusterImage _ _ => true
    | _ => false

/-- The entry an image or cluster-image item is emitted as. -/
def imageEntryOf (it : ContentItem) : Option Entry :=
  match it.content with
  | .image ib => some (.image ib it.page)
  | .clusterImage ib => some (.clusterImage ib it.page)
  | .text _ => none

theorem imageEntries_append (l1 l2 : List Entry) :
    imageEntries (l1 ++ l2) = imageEntries l1 ++ imageEntries l2 :=
  List.filter_append _ _

theorem imageEntries_cons (e : Entry) (l : List Entry) :
    imageEntries (e :: l) = imageEntries [e] ++ imageEntries l := by
  rw [show e :: l = [e] ++ l from rfl, imageEntries_append]

theorem imageEntries_flushTable (st : ClsState) :
    imageEntries (flushTable st).result = imageEntries st.result := by
  unfold flushTable
  split
  · rfl
  · simp [imageEntries_append, imageEntries, mkTable]

theorem imageEntries_pageAdjust (st : ClsState) (it : ContentItem) :
    imageEntries (pageAdjust st it).result = imageEntries st.result := by
  unfold pageAdjust
  split
  · split
    · simp only []
      rw [imageEntries_append, imageEntries_flushTable]
      simp [imageEntries]
    · exact imageEntries_flushTable st
  · rfl

theorem imageEntries_stepBody (med δ : ℚ) (cap : Nat) (en : Bool)
    (st : ClsState) (it : ContentItem) :
    imageEntries (stepBody med δ cap en st it).result =
      imageEntries st.result ++ (imageEntryOf it).toList := by
  unfold stepBody imageEntryOf
  cases hct : it.content with
  | image ib => simp [imageEntries_append, imageEntries]
  | clusterImage ib => simp [imageEntries_append, imageEntries]
  | text tb =>
    simp only [Option.toList, List.append_nil]
    split
    · rfl
    · split
      · rfl
      · split
        · split <;> rfl
        · split
          · split
            · split <;> rfl
            · rfl
          · split
            · rw [imageEntries_append, imageEntries_flushTable]
              simp [imageEntries]
            · split
              · rw [imageEntries_append, imageEntries_flushTable]
                simp [imageEntries]
              · rw [imageEntries_append, imageEntries_flushTable]
                simp [imageEntries]

theorem imageEntries_step (med δ : ℚ) (cap : Nat) (en : Bool)
    (st : ClsState) (it : ContentItem) :
    imageEntries (step med δ cap en st it).result =
      imageEntries st.result ++ (imageEntryOf it).toList := by
  unfold step
  rw [imageEntries_stepBody, imageEntries_pageAdjust]

theorem imageEntries_foldl (med δ : ℚ) (cap : Nat) (en : Bool) :
    ∀ (l : List ContentItem) (st : ClsState),
      imageEntries ((l.foldl (step med δ cap en) st).result) =
        imageEntries st.result ++ l.filterMap imageEntryOf := by
  intro l
  induction l with
  | nil => intro st; simp
  | cons it rest ih =>
    intro st
    simp only [List.foldl_cons, List.filterMap_cons]
    rw [ih, imageEntries_step]
    cases h : imageEntryOf it <;> simp [h]

theorem imageEntries_injectLoop (sb : List (Int × List (List (List Char)))) :
    ∀ (es : List Entry) (inj : List Int),
      imageEntries (injectLoop sb inj es) = imageEntries es := by
  intro es
  induction es with
  | nil => intro inj; rfl
  | cons e rest ih =>
    intro inj
    simp only [injectLoop]
    cases h : assocFind sb e.pageOf with
    | none =>
      rw [imageEntries_cons, imageEntries_cons e rest, ih inj]
    | some rows =>
      dsimp only
      by_cases hcond : e.isKind = true ∧ e.pageOf ∉ inj
      · rw [if_pos hcond, imageEntries_append]
        have h1 : imageEntries
            (if 3 ≤ rows.length then [synthTable e.pageOf rows] else []) = [] := by
          split <;> simp [imageEntries, synthTable]
        rw [h1, List.nil_append, imageEntries_cons, imageEntries_cons e rest,
          ih (e.pageOf :: inj)]
      · rw [if_neg hcond, imageEntries_cons, imageEntries_cons e rest, ih inj]

theorem imageEntries_postPass (es : List Entry) :
    imageEntries (postPass es) = imageEntries es := by
  unfold postPass
  split
  · rfl
  · exact imageEntries_injectLoop _ es []

/-- C2 counterexample: a stream consisting of a single image item and no
text items yields the empty output (the classifier returns `[]` when the
collected font-size list is empty), so the image item is not emitted at
all. -/
theorem C2_counterexample :
    classify_items
      [⟨0, 0, 1, .image ⟨[1], 0, 0, str "png", 1, (0, 0, 1, 1), none⟩⟩]
      2 120 true = [] := by decide

/-- C2 (amended): provided the stream contains at least one text item,
every image / cluster-image item is emitted as exactly one image resp.
cluster-image entry carrying its payload and page, in stream order,
untouched by the text-classification logic. -/
theorem C2_classify_items_images (items : List ContentItem) (δ : ℚ)
    (cap : Nat) (en : Bool) (hex : ∃ it ∈ items, it.isText = true) :
    imageEntries (classify_items items δ cap en) =
      items.filterMap imageEntryOf := by
  obtain ⟨it0, hmem, htext⟩ := hex
  have hne : items ≠ [] := fun h => by subst h; exact absurd hmem (by simp)
  have hsz : (items.filterMap fun it =>
      match it.content with
      | .text tb => some tb.fontsize
      | _ => none) ≠ [] := by
    intro h
    obtain ⟨tb, hct⟩ : ∃ tb, it0.content = .text tb := by
      unfold ContentItem.isText at htext
      cases hc : it0.content with
      | text tb => exact ⟨tb, rfl⟩
      | image ib => rw [hc] at htext; simp at htext
      | clusterImage ib => rw [hc] at htext; simp at htext
    have : tb.fontsize ∈ items.filterMap fun it =>
        match it.content with
        | .text tb => some tb.fontsize
        | _ => none :=
      List.mem_filterMap.mpr ⟨it0, hmem, by rw [hct]⟩
    rw [h] at this
    exact absurd this (by simp)
  unfold classify_items
  rw [if_neg hne]
  simp only []
  rw [if_neg hsz]
  rw [imageEntries_postPass, imageEntries_flushTable, imageEntries_foldl]
  simp [imageEntries, initState]

/-- A concrete text item accompanying the C2 witness stream. -/
def textItemW : ContentItem :=
  ⟨0, 1, 100, .text ⟨str "texte", 10, 0, 1, 100, 0, [], (0, 0, 1, 1)⟩⟩

/-- C2 witness: the amended theorem applied to a concrete stream with one
image and one text item. -/
theorem C2_witness :
    imageEntries (classify_items
        [⟨0, 0, 1, .image ⟨[1], 0, 0, str "png", 1, (0, 0, 1, 1), none⟩⟩,
         textItemW] 2 120 true) =
      ([⟨0, 0, 1, .image ⟨[1], 0, 0, str "png", 1, (0, 0, 1, 1), none⟩⟩,
        textItemW] : List ContentItem).filterMap imageEntryOf :=
  C2_classify_items_images _ 2 120 true ⟨textItemW, by decide, by decide⟩

/-! ### Claim C9 -/

theorem flushTable_rows (st : ClsState) : (flushTable st).rows = [] := by
  unfold flushTable
  split
  · assumption
  · rfl

theorem flushTable_currentPage (st : ClsState) :
    (flushTable st).currentPage = st.currentPage := by
  unfold flushTable
  split <;> rfl

theorem pageAdjust_currentPage (st : ClsState) (it : ContentItem) :
    (pageAdjust st it).currentPage = it.page := by
  unfold pageAdjust
  split
  · split <;> rfl
  · rename_i h
    push_neg at h
    exact h.symm ▸ rfl

theorem stepBody_currentPage (med δ : ℚ) (cap : Nat) (en : Bool)
    (st : ClsState) (it : ContentItem) :
    (stepBody med δ cap en st it).currentPage = st.currentPage := by
  unfold stepBody
  cases it.content with
  | image ib => rfl
  | clusterImage ib => rfl
  | text tb =>
    dsimp only
    split
    · rfl
    · split
      · rfl
      · split
        · split <;> rfl
        · split
          · split
            · split <;> rfl
            · rfl
          · split
            · exact flushTable_currentPage st
            · split
              · exact flushTable_currentPage st
              · exact flushTable_currentPage st

theorem stepBody_inv (med δ : ℚ) (cap : Nat) (en : Bool) (st : ClsState)
    (it : ContentItem) (hcur : st.currentPage = it.page)
    (hinv : st.rows ≠ [] → st.tablePage = st.currentPage) :
    (stepBody med δ cap en st it).rows ≠ [] →
      (stepBody med δ cap en st it).tablePage =
        (stepBody med δ cap en st it).currentPage := by
  unfold stepBody
  cases it.content with
  | image ib => exact hinv
  | clusterImage ib => exact hinv
  | text tb =>
    dsimp only
    split
    · exact hinv
    · split
      · exact hinv
      · split
        · by_cases hr : st.rows = []
          · rw [if_pos hr]
            intro _
            simpa using hcur.symm
          · rw [if_neg hr]
            intro _
            simpa using hinv hr
        · split
          · by_cases helig : st.rows = [] ∨
                (st.tablePage = it.page ∧ |it.y_coord - st.startY| < 50)
            · rw [if_pos helig]
              by_cases hr : st.rows = []
              · rw [if_pos hr]
                intro _
                simpa using hcur.symm
              · rw [if_neg hr]
                intro _
                simpa using hinv hr
            · rw [if_neg helig]
              exact hinv
          · split
            · intro h
              exact absurd (by simpa using flushTable_rows st) h
            · split
              · intro h
                exact absurd (by simpa using flushTable_rows st) h
              · intro h
                exact absurd (by simpa using flushTable_rows st) h

theorem pageAdjust_inv (st : ClsState) (it : ContentItem)
    (hinv : st.rows ≠ [] → st.tablePage = st.currentPage) :
    (pageAdjust st it).rows ≠ [] →
      (pageAdjust st it).tablePage = (pageAdjust st it).currentPage := by
  unfold pageAdjust
  split
  · split
    · intro h
      exact absurd (by simpa using flushTable_rows st) h
    · intro h
      exact absurd (by simpa using flushTable_rows st) h
  · exact hinv

/-- C9: on a page change the classifier first flushes the pending table
(emitting a table entry iff at least one row accumulated) and then emits a
page break, except that no break is emitted before the first page
(`current_page = -1`); the state after page handling has no pending rows,
so accumulation never crosses a page boundary (formally: the invariant
"pending rows belong to the current page" is preserved by every step); and
`classify_items` applies a final flush after the last item, so final
accumulated rows are emitted. -/
theorem C9_page_change :
    (∀ (st : ClsState) (it : ContentItem), it.page ≠ st.currentPage →
        (pageAdjust st it).result =
            st.result ++ (if st.rows = [] then [] else [mkTable st]) ++
              (if st.currentPage ≥ 0 then [Entry.pageBreak st.currentPage]
               else []) ∧
          (pageAdjust st it).rows = [] ∧
          (pageAdjust st it).currentPage = it.page) ∧
    (∀ (st : ClsState) (it : ContentItem), it.page = st.currentPage →
        pageAdjust st it = st) ∧
    (∀ st : ClsState, st.rows ≠ [] →
        (flushTable st).result = st.result ++ [mkTable st] ∧
          (flushTable st).rows = []) ∧
    (∀ st : ClsState, st.rows = [] → flushTable st = st) ∧
    (∀ (med δ : ℚ) (cap : Nat) (en : Bool) (st : ClsState)
        (it : ContentItem),
        (st.rows ≠ [] → st.tablePage = st.currentPage) →
        ((step med δ cap en st it).rows ≠ [] →
          (step med δ cap en st it).tablePage =
            (step med δ cap en st it).currentPage)) ∧
    (∀ (items : List ContentItem) (δ : ℚ) (cap : Nat) (en : Bool),
        items ≠ [] →
        (items.filterMap fun it =>
          match it.content with
          | .text tb => some tb.fontsize
          | _ => none) ≠ [] →
        classify_items items δ cap en =
          postPass (flushTable (items.foldl
            (step (median (items.filterMap fun it =>
              match it.content with
              | .text tb => some tb.fontsize
              | _ => none)) δ cap en) initState)).result) := by
  refine ⟨?_, ?_, ?_, ?_, ?_, ?_⟩
  · intro st it hne
    unfold pageAdjust flushTable
    rw [if_pos hne]
    by_cases hr : st.rows = [] <;> by_cases hc : st.currentPage ≥ 0 <;>
      simp [hr, hc, ge_iff_le] at *
  · intro st it heq
    unfold pageAdjust
    rw [if_neg (by simpa using heq)]
  · intro st hr
    unfold flushTable
    rw [if_neg hr]
    exact ⟨rfl, rfl⟩
  · intro st hr
    unfold flushTable
    rw [if_pos hr]
  · intro med δ cap en st it hinv
    unfold step
    exact stepBody_inv med δ cap en _ it (pageAdjust_currentPage st it)
      (pageAdjust_inv st it hinv)
  · intro items δ cap en hne hsz
    unfold classify_items
    rw [if_neg hne]
    dsimp only
    rw [if_neg hsz]

/-- Concrete classifier state for the C9 witness: a pending one-row table
on page 3. -/
def stW : ClsState := ⟨3, [[str "1", str "2"]], 3, 100, 5, [Entry.pageBreak 2]⟩

/-- Concrete item on a new page for the C9 witness. -/
def itW : ContentItem :=
  ⟨4, 0, 50, .text ⟨str "abc", 10, 4, 0, 50, 0, [], (0, 0, 1, 1)⟩⟩

/-- C9 witness: the page-change conjunct of the theorem applied at a
concrete state with a pending table. -/
theorem C9_witness :
    (pageAdjust stW itW).result =
        stW.result ++ (if stW.rows = [] then [] else [mkTable stW]) ++
          (if stW.currentPage ≥ 0 then [Entry.pageBreak stW.currentPage]
           else []) ∧
      (pageAdjust stW itW).rows = [] ∧
      (pageAdjust stW itW).currentPage = itW.page :=
  C9_page_change.1 stW itW (by decide)

/-! ### Claim C3 -/

/-- Entries emitted for a single classified text item (list-item, heading
or paragraph). -/
def Entry.isEmit : Entry → Bool
  | .li _ _ _ => true
  | .h2 _ _ _ => true
  | .p _ _ _ => true
  | _ => false

theorem flushResult_eq (st1 : ClsState) (e : Entry) :
    (flushTable st1).result ++ [e] =
      st1.result ++ (if st1.rows = [] then [] else [mkTable st1]) ++ [e] := by
  unfold flushTable
  by_cases hr : st1.rows = []
  · rw [if_pos hr, if_pos hr]
    simp
  · rw [if_neg hr, if_neg hr]

/-- First numeric row on page 6 (starts a table at y = 100). -/
def numRowA : ContentItem :=
  ⟨6, 0, 100, .text ⟨str "1 2", 10, 6, 0, 100, 0, [], (0, 0, 1, 1)⟩⟩

/-- Second numeric row on page 6 at y = 400, too far from the table start
(|400 − 100| ≥ 50). -/
def numRowB : ContentItem :=
  ⟨6, 1, 400, .text ⟨str "3 4", 10, 6, 1, 400, 0, [], (0, 0, 1, 1)⟩⟩

/-- C3 counterexample: a numeric row on the table-capable page that fails
the same-page/within-50-units proximity condition is silently dropped, not
classified as a paragraph.  The stream of two numeric rows on page 6 at
y = 100 and y = 400 yields only the one-row table of the first item: no
entry at all (in particular no paragraph) corresponds to the second. -/
theorem C3_counterexample :
    classify_items [numRowA, numRowB] 2 120 true =
      [Entry.table ⟨6, 0, 100, [[str "1", str "2"]], (0, 0, 0, 0)⟩ 6] := by
  with_unfolding_all decide

/-- C3 (amended): after page handling, a text item with non-empty
normalized text and y-coordinate within the footer threshold contributes
to the classifier exactly once — its exercise rows are appended to the
pending table, or an eligible numeric row on page 6 is appended, or
exactly one list-item / heading / paragraph entry is emitted — EXCEPT
that a numeric row on page 6 failing the proximity condition is silently
dropped (the step leaves the state unchanged). -/
theorem C3_text_item_step (med δ : ℚ) (cap : Nat) (en : Bool)
    (st : ClsState) (it : ContentItem) (tb : TextBlock)
    (hct : it.content = .text tb)
    (hne : normalize_text tb.text ≠ [])
    (hy : ¬(it.y_coord > 780)) :
    (parse_exercises_table (normalize_text tb.text) ≠ [] →
      (step med δ cap en st it).result = (pageAdjust st it).result ∧
      (step med δ cap en st it).rows =
        (pageAdjust st it).rows ++
          parse_exercises_table (normalize_text tb.text)) ∧
    (parse_exercises_table (normalize_text tb.text) = [] →
      is_numeric_row (normalize_text tb.text) = true → it.page = 6 →
      ((pageAdjust st it).rows = [] ∨
        ((pageAdjust st it).tablePage = it.page ∧
          |it.y_coord - (pageAdjust st it).startY| < 50)) →
      (step med δ cap en st it).result = (pageAdjust st it).result ∧
      (step med δ cap en st it).rows =
        (pageAdjust st it).rows ++ [splitWs (normalize_text tb.text)]) ∧
    (parse_exercises_table (normalize_text tb.text) = [] →
      is_numeric_row (normalize_text tb.text) = true → it.page = 6 →
      ¬((pageAdjust st it).rows = [] ∨
        ((pageAdjust st it).tablePage = it.page ∧
          |it.y_coord - (pageAdjust st it).startY| < 50)) →
      step med δ cap en st it = pageAdjust st it) ∧
    (parse_exercises_table (normalize_text tb.text) = [] →
      ¬(is_numeric_row (normalize_text tb.text) = true ∧ it.page = 6) →
      ∃ e : Entry, e.isEmit = true ∧ e.pageOf = it.page ∧
        (step med δ cap en st it).result =
          (pageAdjust st it).result ++
            (if (pageAdjust st it).rows = [] then []
             else [mkTable (pageAdjust st it)]) ++ [e] ∧
        (step med δ cap en st it).rows = []) := by
  unfold step stepBody
  rw [hct]
  dsimp only
  rw [if_neg hne, if_neg hy]
  refine ⟨?_, ?_, ?_, ?_⟩
  · intro hex
    rw [if_pos hex]
    by_cases hr : (pageAdjust st it).rows = []
    · rw [if_pos hr]
      exact ⟨rfl, rfl⟩
    · rw [if_neg hr]
      exact ⟨rfl, rfl⟩
  · intro hex hnum hpg helig
    rw [if_neg (by simpa using hex), if_pos ⟨hnum, hpg⟩, if_pos helig]
    by_cases hr : (pageAdjust st it).rows = []
    · rw [if_pos hr]
      exact ⟨rfl, rfl⟩
    · rw [if_neg hr]
      exact ⟨rfl, rfl⟩
  · intro hex hnum hpg helig
    rw [if_neg (by simpa using hex), if_pos ⟨hnum, hpg⟩, if_neg helig]
  · intro hex hnum
    rw [if_neg (by simpa using hex), if_neg hnum]
    cases hbm : bulletMatch (normalize_text tb.text) with
    | some pr =>
      obtain ⟨sym, itx⟩ := pr
      refine ⟨.li (sym :: ' ' :: itx) it.page tb, rfl, rfl, ?_, ?_⟩
      · dsimp only
        rw [flushResult_eq]
      · simpa using flushTable_rows (pageAdjust st it)
    | none =>
      by_cases hh : en = true ∧ δ ≤ tb.fontsize - med ∧
          (normalize_text tb.text).length ≤ cap
      · rw [if_pos hh]
        refine ⟨.h2 (normalize_text tb.text) it.page tb, rfl, rfl, ?_, ?_⟩
        · dsimp only
          rw [flushResult_eq]
        · simpa using flushTable_rows (pageAdjust st it)
      · rw [if_neg hh]
        refine ⟨.p (normalize_text tb.text) it.page tb, rfl, rfl, ?_, ?_⟩
        · dsimp only
          rw [flushResult_eq]
        · simpa using flushTable_rows (pageAdjust st it)

/-- Concrete exercise-pair text block for the C3 witness. -/
def exTbW : TextBlock :=
  ⟨str "Exercice 1 5 points", 10, 2, 0, 50, 0, [], (0, 0, 1, 1)⟩

/-- The C3 witness item wrapping `exTbW`. -/
def exItemW : ContentItem := ⟨2, 0, 50, .text exTbW⟩

/-- C3 witness: the exercise-pair conjunct of the step theorem applied at
a concrete state and item. -/
theorem C3_witness :
    (step 10 2 120 true initState exItemW).result =
        (pageAdjust initState exItemW).result ∧
      (step 10 2 120 true initState exItemW).rows =
        (pageAdjust initState exItemW).rows ++
          parse_exercises_table (normalize_text exTbW.text) :=
  (C3_text_item_step 10 2 120 true initState exItemW exTbW rfl
    (by decide) (by decide)).1 (by decide)

/-! ### Claim C6 -/

/-- Page-0 paragraph (font size 10) for the C6 counterexample. -/
def c6Item1 : ContentItem :=
  ⟨0, 0, 100, .text ⟨str "premier paragraphe", 10, 0, 0, 100, 0, [], (0, 0, 1, 1)⟩⟩

/-- Second page-0 paragraph (font size 10) for the C6 counterexample. -/
def c6Item2 : ContentItem :=
  ⟨0, 1, 150, .text ⟨str "second paragraphe", 10, 0, 1, 150, 0, [], (0, 0, 1, 1)⟩⟩

/-- The sole page-1 text item (font size 13) for the C6 counterexample. -/
def c6Item3 : ContentItem :=
  ⟨1, 0, 100, .text ⟨str "Titre sur page deux", 13, 1, 0, 100, 0, [], (0, 0, 1, 1)⟩⟩

/-- C6 counterexample: the classifier compares against the median font
size of ALL text items of the stream, not the median of the item's page.
On a stream whose page 1 contains a single size-13 block, the page median
is 13, so the claim's condition (13 − 13 ≥ 2) fails and would demand a
paragraph — yet the code, using the stream-wide median 10, emits a
heading for it. -/
theorem C6_counterexample :
    classify_items [c6Item1, c6Item2, c6Item3] 2 120 true =
      [Entry.p (str "premier paragraphe") 0
        ⟨str "premier paragraphe", 10, 0, 0, 100, 0, [], (0, 0, 1, 1)⟩,
       Entry.p (str "second paragraphe") 0
        ⟨str "second paragraphe", 10, 0, 1, 150, 0, [], (0, 0, 1, 1)⟩,
       Entry.pageBreak 0,
       Entry.h2 (str "Titre sur page deux") 1
        ⟨str "Titre sur page deux", 13, 1, 0, 100, 0, [], (0, 0, 1, 1)⟩] ∧
      ¬((13 : ℚ) - median [13] ≥ 2) := by
  constructor
  · with_unfolding_all decide
  · with_unfolding_all decide

/-- C6 (amended): with heading detection enabled, a text item that
reaches the classification chain's tail (non-empty normalized text, above
the footer band, no exercise pairs, not a numeric row on page 6, no
bullet marker) is emitted as a heading exactly when its font size exceeds
the stream-wide median (`med`, the value `classify_items` computes over
all text items) by at least the delta AND its normalized length is at
most the cap; otherwise it is emitted as a paragraph. -/
theorem C6_heading_rule (med δ : ℚ) (cap : Nat) (st : ClsState)
    (it : ContentItem) (tb : TextBlock)
    (hct : it.content = .text tb)
    (hne : normalize_text tb.text ≠ [])
    (hy : ¬(it.y_coord > 780))
    (hex : parse_exercises_table (normalize_text tb.text) = [])
    (hnum : ¬(is_numeric_row (normalize_text tb.text) = true ∧ it.page = 6))
    (hbul : bulletMatch (normalize_text tb.text) = none) :
    (step med δ cap true st it).result =
        (pageAdjust st it).result ++
          (if (pageAdjust st it).rows = [] then []
           else [mkTable (pageAdjust st it)]) ++
          [if δ ≤ tb.fontsize - med ∧ (normalize_text tb.text).length ≤ cap
           then Entry.h2 (normalize_text tb.text) it.page tb
           else Entry.p (normalize_text tb.text) it.page tb] ∧
      (step med δ cap true st it).rows = [] := by
  unfold step stepBody
  rw [hct]
  dsimp only
  rw [if_neg hne, if_neg hy, if_neg (by simpa using hex), if_neg hnum, hbul]
  dsimp only
  by_cases hh : δ ≤ tb.fontsize - med ∧ (normalize_text tb.text).length ≤ cap
  · rw [if_pos (by exact ⟨rfl, hh.1, hh.2⟩), if_pos hh]
    refine ⟨?_, by simpa using flushTable_rows (pageAdjust st it)⟩
    dsimp only
    rw [flushResult_eq]
  · rw [if_neg (fun hc => hh ⟨hc.2.1, hc.2.2⟩), if_neg hh]
    refine ⟨?_, by simpa using flushTable_rows (pageAdjust st it)⟩
    dsimp only
    rw [flushResult_eq]

/-- The 20-character size-13 block of the C6 witness. -/
def hdTb : TextBlock :=
  ⟨str "Vingt caracteres ici", 13, 0, 0, 100, 0, [], (0, 0, 1, 1)⟩

/-- The C6 witness item wrapping `hdTb`. -/
def hdItem : ContentItem := ⟨0, 0, 100, .text hdTb⟩

/-- The 150-character size-13 block of the C6 witness. -/
def longTb : TextBlock :=
  ⟨List.replicate 150 'a', 13, 0, 0, 100, 0, [], (0, 0, 1, 1)⟩

/-- The C6 witness item wrapping `longTb`. -/
def longItem : ContentItem := ⟨0, 0, 100, .text longTb⟩

/-- C6 witness: the heading rule applied with median 10 and delta 2 to a
size-13 block of normalized length 20 and to one of length 150 (cap
120). -/
theorem C6_witness :
    ((step 10 2 120 true initState hdItem).result =
        (pageAdjust initState hdItem).result ++
          (if (pageAdjust initState hdItem).rows = [] then []
           else [mkTable (pageAdjust initState hdItem)]) ++
          [if (2 : ℚ) ≤ hdTb.fontsize - 10 ∧
              (normalize_text hdTb.text).length ≤ 120
           then Entry.h2 (normalize_text hdTb.text) hdItem.page hdTb
           else Entry.p (normalize_text hdTb.text) hdItem.page hdTb] ∧
      (step 10 2 120 true initState hdItem).rows = []) ∧
    ((step 10 2 120 true initState longItem).result =
        (pageAdjust initState longItem).result ++
          (if (pageAdjust initState longItem).rows = [] then []
           else [mkTable (pageAdjust initState longItem)]) ++
          [if (2 : ℚ) ≤ longTb.fontsize - 10 ∧
              (normalize_text longTb.text).length ≤ 120
           then Entry.h2 (normalize_text longTb.text) longItem.page longTb
           else Entry.p (normalize_text longTb.text) longItem.page longTb] ∧
      (step 10 2 120 true initState longItem).rows = []) :=
  ⟨C6_heading_rule 10 2 120 initState hdItem hdTb rfl (by decide) (by decide)
      (by decide) (by decide) (by decide),
   C6_heading_rule 10 2 120 initState longItem longTb rfl (by decide)
      (by decide) (by decide) (by decide) (by decide)⟩

/-! ### Claim C8 -/

/-- The synthesized tables of the qualifying pages (at least 3 collected
rows), in scoreboard order. -/
def synthList (sb : List (Int × List (List (List Char)))) : List Entry :=
  sb.filterMap fun pr =>
    if 3 ≤ pr.2.length then some (synthTable pr.1 pr.2) else none

/-- The (page, rows) pairs actually handled by `injectLoop`, in handling
order. -/
def handledPairs (sb : List (Int × List (List (List Char)))) :
    List Int → List Entry → List (Int × List (List (List Char)))
  | _, [] => []
  | inj, e :: rest =>
    match assocFind sb e.pageOf with
    | some rows =>
      if e.isKind = true ∧ e.pageOf ∉ inj then
        (e.pageOf, rows) :: handledPairs sb (e.pageOf :: inj) rest
      else handledPairs sb inj rest
    | none => handledPairs sb inj rest

theorem injectLoop_count (sb : List (Int × List (List (List Char)))) :
    ∀ (es : List Entry) (inj : List Int) (x : Entry),
      (injectLoop sb inj es).count x =
        es.count x + (synthList (handledPairs sb inj es)).count x := by
  intro es
  induction es with
  | nil => intro inj x; simp [injectLoop, handledPairs, synthList]
  | cons e rest ih =>
    intro inj x
    simp only [injectLoop, handledPairs]
    cases h : assocFind sb e.pageOf with
    | none =>
      dsimp only
      rw [List.count_cons, List.count_cons, ih inj]
      omega
    | some rows =>
      dsimp only
      by_cases hcond : e.isKind = true ∧ e.pageOf ∉ inj
      · rw [if_pos hcond, if_pos hcond]
        by_cases hlen : 3 ≤ rows.length
        · rw [show synthList ((e.pageOf, rows) :: handledPairs sb (e.pageOf :: inj) rest) =
            synthTable e.pageOf rows :: synthList (handledPairs sb (e.pageOf :: inj) rest) by
              simp [synthList, List.filterMap_cons, hlen]]
          rw [if_pos hlen]
          simp only [List.count_append, List.count_cons]
          rw [ih (e.pageOf :: inj)]
          simp [List.count_cons]
          omega
        · rw [show synthList ((e.pageOf, rows) :: handledPairs sb (e.pageOf :: inj) rest) =
            synthList (handledPairs sb (e.pageOf :: inj) rest) by
              simp [synthList, List.filterMap_cons, hlen]]
          rw [if_neg hlen]
          simp only [List.nil_append, List.count_cons]
          rw [ih (e.pageOf :: inj)]
          omega
      · rw [if_neg hcond, if_neg hcond]
        rw [List.count_cons, List.count_cons, ih inj]
        omega

theorem mem_handledPairs (sb : List (Int × List (List (List Char)))) :
    ∀ (es : List Entry) (inj : List Int) (p : Int)
      (rows : List (List (List Char))),
      ((p, rows) ∈ handledPairs sb inj es ↔
        p ∉ inj ∧ assocFind sb p = some rows ∧
          ∃ e ∈ es, e.isKind = true ∧ e.pageOf = p) := by
  intro es
  induction es with
  | nil => intro inj p rows; simp [handledPairs]
  | cons e rest ih =>
    intro inj p rows
    simp only [handledPairs]
    cases h : assocFind sb e.pageOf with
    | none =>
      rw [ih inj]
      constructor
      · rintro ⟨h1, h2, e', he', h3⟩
        exact ⟨h1, h2, e', List.mem_cons_of_mem _ he', h3⟩
      · rintro ⟨h1, h2, e', he', h3, h4⟩
        rcases List.mem_cons.mp he' with rfl | he''
        · rw [h4] at h
          rw [h2] at h
          cases h
        · exact ⟨h1, h2, e', he'', h3, h4⟩
    | some rows0 =>
      dsimp only
      by_cases hcond : e.isKind = true ∧ e.pageOf ∉ inj
      · rw [if_pos hcond]
        constructor
        · intro hmem
          rcases List.mem_cons.mp hmem with heq | hmem'
          · obtain ⟨hp, hr⟩ := Prod.mk.inj heq
            subst hp
            exact ⟨hcond.2, hr ▸ h, e, List.mem_cons_self _ _, hcond.1, rfl⟩
          · obtain ⟨h1, h2, e', he', h3, h4⟩ := (ih (e.pageOf :: inj) p rows).mp hmem'
            have hne : p ≠ e.pageOf := fun hp =>
              h1 (hp ▸ List.mem_cons_self _ _)
            refine ⟨fun hp => h1 (List.mem_cons_of_mem _ hp), h2,
              e', List.mem_cons_of_mem _ he', h3, h4⟩
        · rintro ⟨h1, h2, e', he', h3, h4⟩
          by_cases hp : p = e.pageOf
          · subst hp
            rw [h2] at h
            cases h
            exact List.mem_cons_self _ _
          · refine List.mem_cons_of_mem _ ((ih (e.pageOf :: inj) p rows).mpr
              ⟨?_, h2, ?_⟩)
            · intro hmem
              rcases List.mem_cons.mp hmem with h' | h'
              · exact hp h'
              · exact h1 h'
            · rcases List.mem_cons.mp he' with rfl | he''
              · exact absurd h4.symm hp
              · exact ⟨e', he'', h3, h4⟩
      · rw [if_neg hcond]
        rw [ih inj]
        constructor
        · rintro ⟨h1, h2, e', he', h3, h4⟩
          exact ⟨h1, h2, e', List.mem_cons_of_mem _ he', h3, h4⟩
        · rintro ⟨h1, h2, e', he', h3, h4⟩
          rcases List.mem_cons.mp he' with rfl | he''
          · exact absurd ⟨h3, h4 ▸ h1⟩ hcond
          · exact ⟨h1, h2, e', he'', h3, h4⟩

theorem handledPairs_keys_nodup (sb : List (Int × List (List (List Char)))) :
    ∀ (es : List Entry) (inj : List Int),
      ((handledPairs sb inj es).map Prod.fst).Nodup := by
  intro es
  induction es with
  | nil => intro inj; simp [handledPairs]
  | cons e rest ih =>
    intro inj
    simp only [handledPairs]
    cases h : assocFind sb e.pageOf with
    | none => exact ih inj
    | some rows =>
      dsimp only
      by_cases hcond : e.isKind = true ∧ e.pageOf ∉ inj
      · rw [if_pos hcond]
        simp only [List.map_cons, List.nodup_cons]
        refine ⟨?_, ih (e.pageOf :: inj)⟩
        intro hmem
        obtain ⟨pr, hpr, hfst⟩ := List.mem_map.mp hmem
        obtain ⟨q, rows'⟩ := pr
        have hq := (mem_handledPairs sb rest (e.pageOf :: inj) q rows').mp hpr
        exact hq.1 (by rw [show q = e.pageOf from hfst]; exact List.mem_cons_self _ _)
      · rw [if_neg hcond]
        exact ih inj

theorem scoreboardAdd_keys (acc : List (Int × List (List (List Char))))
    (pg : Int) (row : List (List Char)) :
    (scoreboardAdd acc pg row).map Prod.fst = acc.map Prod.fst ∨
      ((scoreboardAdd acc pg row).map Prod.fst = acc.map Prod.fst ++ [pg] ∧
        pg ∉ acc.map Prod.fst) := by
  induction acc with
  | nil => right; simp [scoreboardAdd]
  | cons pr rest ih =>
    obtain ⟨q, rs⟩ := pr
    simp only [scoreboardAdd]
    by_cases hq : q = pg
    · rw [if_pos hq]
      left
      simp
    · rw [if_neg hq]
      rcases ih with h | ⟨h, hmem⟩
      · left
        simp [h]
      · right
        refine ⟨by simp [h], ?_⟩
        simp only [List.map_cons, List.mem_cons]
        rintro (h' | h')
        · exact hq h'.symm
        · exact hmem h'

theorem scoreboardAdd_nodup {acc : List (Int × List (List (List Char)))}
    (pg : Int) (row : List (List Char))
    (h : (acc.map Prod.fst).Nodup) :
    ((scoreboardAdd acc pg row).map Prod.fst).Nodup := by
  rcases scoreboardAdd_keys acc pg row with h' | ⟨h', hmem⟩
  · rw [h']
    exact h
  · rw [h']
    rw [List.nodup_append]
    exact ⟨h, List.nodup_singleton pg, by
      intro a ha hb
      simp at hb
      subst hb
      exact hmem ha⟩

theorem scoreboard_foldl_nodup :
    ∀ (es : List Entry) (acc : List (Int × List (List (List Char)))),
      (acc.map Prod.fst).Nodup →
      ((es.foldl (fun acc e =>
          match e with
          | .p s pg _ =>
            match searchScore s with
            | some (g1, g2) =>
              scoreboardAdd acc pg [stripWs g1, stripWs g2 ++ str " points"]
            | none => acc
          | _ => acc) acc).map Prod.fst).Nodup := by
  intro es
  induction es with
  | nil => intro acc h; exact h
  | cons e rest ih =>
    intro acc h
    simp only [List.foldl_cons]
    apply ih
    cases e with
    | p s pg src =>
      dsimp only
      cases hs : searchScore s with
      | some pr =>
        obtain ⟨g1, g2⟩ := pr
        exact scoreboardAdd_nodup pg _ h
      | none => exact h
    | table tb pg => exact h
    | pageBreak pg => exact h
    | image ib pg => exact h
    | clusterImage ib pg => exact h
    | li s pg src => exact h
    | h2 s pg src => exact h

theorem scoreboardOf_keys_nodup (es : List Entry) :
    ((scoreboardOf es).map Prod.fst).Nodup :=
  scoreboard_foldl_nodup es [] (by simp)

theorem scoreboard_foldl_keys :
    ∀ (es : List Entry) (acc : List (Int × List (List (List Char)))) (p : Int),
      p ∈ ((es.foldl (fun acc e =>
          match e with
          | .p s pg _ =>
            match searchScore s with
            | some (g1, g2) =>
              scoreboardAdd acc pg [stripWs g1, stripWs g2 ++ str " points"]
            | none => acc
          | _ => acc) acc).map Prod.fst) →
      p ∈ acc.map Prod.fst ∨ ∃ e ∈ es, e.isKind = true ∧ e.pageOf = p := by
  intro es
  induction es with
  | nil => intro acc p h; exact Or.inl h
  | cons e rest ih =>
    intro acc p h
    simp only [List.foldl_cons] at h
    rcases ih _ p h with h' | ⟨e', he', h1, h2⟩
    · cases e with
      | p s pg src =>
        dsimp only at h'
        cases hs : searchScore s with
        | some pr =>
          obtain ⟨g1, g2⟩ := pr
          rw [hs] at h'
          dsimp only at h'
          rcases scoreboardAdd_keys acc pg
              [stripWs g1, stripWs g2 ++ str " points"] with hk | ⟨hk, _⟩
          · rw [hk] at h'
            exact Or.inl h'
          · rw [hk] at h'
            rcases List.mem_append.mp h' with h'' | h''
            · exact Or.inl h''
            · simp at h''
              subst h''
              exact Or.inr ⟨Entry.p s p src, List.mem_cons_self _ _, rfl, rfl⟩
        | none =>
          rw [hs] at h'
          exact Or.inl h'
      | table tb pg => exact Or.inl h'
      | pageBreak pg => exact Or.inl h'
      | image ib pg => exact Or.inl h'
      | clusterImage ib pg => exact Or.inl h'
      | li s pg src => exact Or.inl h'
      | h2 s pg src => exact Or.inl h'
    · exact Or.inr ⟨e', List.mem_cons_of_mem _ he', h1, h2⟩

theorem scoreboardOf_keys_kind (es : List Entry) (p : Int)
    (h : p ∈ (scoreboardOf es).map Prod.fst) :
    ∃ e ∈ es, e.isKind = true ∧ e.pageOf = p := by
  rcases scoreboard_foldl_keys es [] p h with h' | h'
  · simp at h'
  · exact h'

theorem mem_of_assocFind {α β : Type} [DecidableEq α] :
    ∀ (ps : List (α × β)) (p : α) (v : β),
      assocFind ps p = some v → (p, v) ∈ ps := by
  intro ps
  induction ps with
  | nil => intro p v h; cases h
  | cons pr rest ih =>
    intro p v h
    obtain ⟨k, w⟩ := pr
    simp only [assocFind] at h
    split at h
    · rename_i hk
      cases h
      subst hk
      exact List.mem_cons_self _ _
    · exact List.mem_cons_of_mem _ (ih p v h)

theorem assocFind_of_mem {α β : Type} [DecidableEq α] :
    ∀ (ps : List (α × β)) (p : α) (v : β),
      (ps.map Prod.fst).Nodup → (p, v) ∈ ps → assocFind ps p = some v := by
  intro ps
  induction ps with
  | nil => intro p v _ h; simp at h
  | cons pr rest ih =>
    intro p v hnd hmem
    obtain ⟨k, w⟩ := pr
    simp only [assocFind]
    rcases List.mem_cons.mp hmem with heq | hmem'
    · obtain ⟨h1, h2⟩ := Prod.mk.inj heq
      subst h1
      rw [if_pos rfl, h2]
    · by_cases hk : k = p
      · subst hk
        exfalso
        have hpmem : k ∈ rest.map Prod.fst := by
          have := List.mem_map_of_mem Prod.fst hmem'
          simpa using this
        exact (List.nodup_cons.mp (by simpa using hnd)).1 hpmem
      · rw [if_neg hk]
        exact ih p v (List.nodup_cons.mp (by simpa using hnd)).2 hmem'

theorem handledPairs_perm (es : List Entry) :
    List.Perm (handledPairs (scoreboardOf es) [] es) (scoreboardOf es) := by
  apply List.perm_of_nodup_nodup_toFinset_eq
  · exact (handledPairs_keys_nodup (scoreboardOf es) es []).of_map _
  · exact (scoreboardOf_keys_nodup es).of_map _
  · ext pr
    obtain ⟨p, rows⟩ := pr
    simp only [List.mem_toFinset]
    rw [mem_handledPairs]
    constructor
    · rintro ⟨_, h2, _⟩
      exact mem_of_assocFind _ p rows h2
    · intro hmem
      refine ⟨by simp,
        assocFind_of_mem _ p rows (scoreboardOf_keys_nodup es) hmem, ?_⟩
      exact scoreboardOf_keys_kind es p
        (by simpa using List.mem_map_of_mem Prod.fst hmem)

theorem injectLoop_position (sb : List (Int × List (List (List Char)))) :
    ∀ (es : List Entry) (inj : List Int) (p : Int)
      (rows : List (List (List Char))),
      p ∉ inj → assocFind sb p = some rows → 3 ≤ rows.length →
      (∃ e ∈ es, e.isKind = true ∧ e.pageOf = p) →
      ∃ l e r, injectLoop sb inj es = l ++ synthTable p rows :: e :: r ∧
        e.isKind = true ∧ e.pageOf = p ∧
        ∀ e' ∈ l, ¬(e'.isKind = true ∧ e'.pageOf = p) := by
  intro es
  induction es with
  | nil =>
    rintro inj p rows _ _ _ ⟨e, he, _⟩
    simp at he
  | cons e0 rest ih =>
    rintro inj p rows hinj hfind hlen hex
    simp only [injectLoop]
    cases h0 : assocFind sb e0.pageOf with
    | none =>
      have hne : e0.pageOf ≠ p := fun hp => by
        rw [hp, hfind] at h0
        cases h0
      have hex' : ∃ e ∈ rest, e.isKind = true ∧ e.pageOf = p := by
        obtain ⟨e', he', h1, h2⟩ := hex
        rcases List.mem_cons.mp he' with rfl | he''
        · exact absurd h2 hne
        · exact ⟨e', he'', h1, h2⟩
      obtain ⟨l', e, r, heq, h1, h2, h3⟩ := ih inj p rows hinj hfind hlen hex'
      refine ⟨e0 :: l', e, r, by rw [heq]; simp, h1, h2, ?_⟩
      intro e' he'
      rcases List.mem_cons.mp he' with rfl | he''
      · rintro ⟨_, hp⟩
        exact hne hp
      · exact h3 e' he''
    | some rows0 =>
      dsimp only
      by_cases hcond : e0.isKind = true ∧ e0.pageOf ∉ inj
      · rw [if_pos hcond]
        by_cases hpp : e0.pageOf = p
        · have hrows : rows0 = rows := by
            rw [hpp, hfind] at h0
            cases h0
            rfl
          subst hrows
          rw [if_pos hlen]
          refine ⟨[], e0, injectLoop sb (e0.pageOf :: inj) rest, ?_,
            hcond.1, hpp, by simp⟩
          simp [hpp]
        · have hex' : ∃ e ∈ rest, e.isKind = true ∧ e.pageOf = p := by
            obtain ⟨e', he', h1, h2⟩ := hex
            rcases List.mem_cons.mp he' with rfl | he''
            · exact absurd h2 hpp
            · exact ⟨e', he'', h1, h2⟩
          have hinj' : p ∉ e0.pageOf :: inj := by
            intro hp
            rcases List.mem_cons.mp hp with hp' | hp'
            · exact hpp hp'.symm
            · exact hinj hp'
          obtain ⟨l', e, r, heq, h1, h2, h3⟩ :=
            ih (e0.pageOf :: inj) p rows hinj' hfind hlen hex'
          refine ⟨(if 3 ≤ rows0.length then [synthTable e0.pageOf rows0]
              else []) ++ e0 :: l', e, r, ?_, h1, h2, ?_⟩
          · rw [heq]
            simp
          · intro e' he'
            rcases List.mem_append.mp he' with he'' | he''
            · have : e' = synthTable e0.pageOf rows0 := by
                revert he''
                split
                · intro h
                  simpa using h
                · intro h
                  simp at h
              rw [this]
              rintro ⟨hk, _⟩
              simp [synthTable, Entry.isKind] at hk
            · rcases List.mem_cons.mp he'' with rfl | he'''
              · rintro ⟨_, hp⟩
                exact hpp hp
              · exact h3 e' he'''
      · rw [if_neg hcond]
        have hne0 : ¬(e0.isKind = true ∧ e0.pageOf = p) := by
          rintro ⟨hk, hp⟩
          exact hcond ⟨hk, hp ▸ hinj⟩
        have hex' : ∃ e ∈ rest, e.isKind = true ∧ e.pageOf = p := by
          obtain ⟨e', he', h1, h2⟩ := hex
          rcases List.mem_cons.mp he' with rfl | he''
          · exact absurd ⟨h1, h2⟩ hne0
          · exact ⟨e', he'', h1, h2⟩
        obtain ⟨l', e, r, heq, h1, h2, h3⟩ := ih inj p rows hinj hfind hlen hex'
        refine ⟨e0 :: l', e, r, by rw [heq]; simp, h1, h2, ?_⟩
        intro e' he'
        rcases List.mem_cons.mp he' with rfl | he''
        · exact hne0
        · exact h3 e' he''

/-- C8: in the post-pass, every page whose collected scoreboard rows
number at least 3 receives exactly one synthesized table entry, inserted
immediately before the page's first heading/paragraph/list/image/cluster
entry, with no such entry of that page earlier in the output; entry
multiplicities otherwise grow exactly by the synthesized tables of the
qualifying pages (so all original paragraph entries remain); and a page
with fewer than 3 rows gets no injected table. -/
theorem C8_scoreboard_injection :
    (∀ (es : List Entry) (p : Int) (rows : List (List (List Char))),
        assocFind (scoreboardOf es) p = some rows → 3 ≤ rows.length →
        ∃ l e r, postPass es = l ++ synthTable p rows :: e :: r ∧
          e.isKind = true ∧ e.pageOf = p ∧
          ∀ e' ∈ l, ¬(e'.isKind = true ∧ e'.pageOf = p)) ∧
    (∀ (es : List Entry) (x : Entry),
        (postPass es).count x =
          es.count x + (synthList (scoreboardOf es)).count x) ∧
    (∀ (es : List Entry) (p : Int) (rows : List (List (List Char))),
        assocFind (scoreboardOf es) p = some rows → rows.length < 3 →
        (postPass es).count (synthTable p rows) =
          es.count (synthTable p rows)) := by
  have hcount : ∀ (es : List Entry) (x : Entry),
      (postPass es).count x =
        es.count x + (synthList (scoreboardOf es)).count x := by
    intro es x
    unfold postPass
    by_cases hsb : scoreboardOf es = []
    · rw [if_pos hsb, hsb]
      simp [synthList]
    · rw [if_neg hsb, injectLoop_count]
      have hperm := (handledPairs_perm es).filterMap
        (fun pr => if 3 ≤ pr.2.length then some (synthTable pr.1 pr.2)
          else none)
      rw [show synthList (handledPairs (scoreboardOf es) [] es) =
          (handledPairs (scoreboardOf es) [] es).filterMap
            (fun pr => if 3 ≤ pr.2.length then some (synthTable pr.1 pr.2)
              else none) from rfl,
        hperm.count_eq]
      rfl
  refine ⟨?_, hcount, ?_⟩
  · intro es p rows hfind hlen
    have hsb : scoreboardOf es ≠ [] := by
      intro h
      rw [h] at hfind
      cases hfind
    unfold postPass
    rw [if_neg hsb]
    apply injectLoop_position (scoreboardOf es) es [] p rows (by simp) hfind hlen
    exact scoreboardOf_keys_kind es p
      (by simpa using List.mem_map_of_mem Prod.fst (mem_of_assocFind _ p rows hfind))
  · intro es p rows hfind hlen
    rw [hcount es (synthTable p rows)]
    have hzero : (synthList (scoreboardOf es)).count (synthTable p rows) = 0 := by
      rw [List.count_eq_zero]
      intro hmem
      obtain ⟨pr, hpr, hg⟩ := List.mem_filterMap.mp hmem
      obtain ⟨q, rs⟩ := pr
      by_cases hq : 3 ≤ rs.length
      · rw [if_pos hq] at hg
        have hg' := Option.some.inj hg
        have heq : (q = p ∧ rs = rows) ∧ q = p := by
          simpa [synthTable, Entry.table.injEq, TableBlock.mk.injEq] using hg'
        rw [heq.1.2] at hq
        omega
      · rw [if_neg hq] at hg
        cases hg
    rw [hzero]
    omega

/-- Source block carried by the C8 witness paragraph entries. -/
def sbSrc : TextBlock := ⟨str "x", 10, 1, 0, 0, 0, [], (0, 0, 1, 1)⟩

/-- Three scoreboard-matching paragraph entries on page 1. -/
def esW : List Entry :=
  [Entry.p (str "Exercice 1 : 5 points") 1 sbSrc,
   Entry.p (str "Exercice 2 : 10 points") 1 sbSrc,
   Entry.p (str "Exercice 3 : 3 points") 1 sbSrc]

/-- The rows collected from `esW`. -/
def rowsW : List (List (List Char)) :=
  [[str "Exercice 1", str "5 points"],
   [str "Exercice 2", str "10 points"],
   [str "Exercice 3", str "3 points"]]

/-- C8 witness: the injection theorem applied to a concrete page with 3
matching paragraph entries. -/
theorem C8_witness :
    ∃ l e r, postPass esW = l ++ synthTable 1 rowsW :: e :: r ∧
      e.isKind = true ∧ e.pageOf = 1 ∧
      ∀ e' ∈ l, ¬(e'.isKind = true ∧ e'.pageOf = 1) :=
  C8_scoreboard_injection.1 esW 1 rowsW (by decide) (by decide)
